import Mathlib

/-
Verification of the robin package: a round-robin data structure (Robin)
over comparable values, backed by a circular doubly-linked list with a
hash index, together with a fixed-capacity stack-like overflow buffer
(LIFOBuffer).

Embedding conventions
=====================
* The circular doubly-linked ring with its cursor (the Go field r.next)
  is embedded as the list of values in rotation order starting at the
  cursor; the empty ring (r.next == nil) is the empty list.  Splicing a
  chain in front of the cursor and moving the cursor to the head of the
  chain (Robin.attach) is then prepending the chain; unlinking a node
  (Robin.unlink) is erasing its value (erasing the head encodes the
  cursor advancing to the removed node's successor, and erasing the
  only element encodes resetting the cursor to nil).
* The Go map r.nodes is embedded by its key set, a duplicate-free list;
  map assignment is List.insert, deletion is List.erase.
* The LIFOBuffer is embedded field by field: the backing slice as a
  list of fixed length, the write index i, the live count n (a Go int,
  kept as Int), and the count map as an association list with Go map
  semantics (reading an absent key yields 0, assigning stores the key).
* Go ints that the source keeps non-negative (capacities, the write
  index, map sizes) are embedded as Nat; constructors that receive ints
  from the caller take Int and perform the source's checks.
* Operations that can hit a Go runtime panic (indexing the backing
  slice out of range, integer modulus by zero, make with a negative
  length) return Option, with none standing for the panic.  All other
  operations are total, mirroring the source.
-/

namespace RobinVerify

/-! ## Association lists with Go map semantics -/

/-- Lookup in an association list: the value of the first matching key. -/
def alookup [DecidableEq T] : List (T × Int) → T → Option Int
  | [], _ => none
  | (k, x) :: l, v => if k = v then some x else alookup l v

/-- Go map assignment m[v] = x: overwrite the first matching key,
or append the binding if the key is absent. -/
def aset [DecidableEq T] : List (T × Int) → T → Int → List (T × Int)
  | [], v, x => [(v, x)]
  | (k, y) :: l, v, x => if k = v then (v, x) :: l else (k, y) :: aset l v x

/-- Go map deletion delete(m, v): drop the first matching key. -/
def aerase [DecidableEq T] : List (T × Int) → T → List (T × Int)
  | [], _ => []
  | (k, y) :: l, v => if k = v then l else (k, y) :: aerase l v

/-- The keys of an association list. -/
def akeys (l : List (T × Int)) : List T := l.map Prod.fst

section AListLemmas

variable [DecidableEq T]

theorem alookup_aset_self (l : List (T × Int)) (v : T) (x : Int) :
    alookup (aset l v x) v = some x := by
  induction l with
  | nil => simp [aset, alookup]
  | cons p l ih =>
    obtain ⟨k, y⟩ := p
    by_cases h : k = v <;> simp [aset, alookup, h, ih]

theorem alookup_aset_ne (l : List (T × Int)) (v w : T) (x : Int) (hvw : w ≠ v) :
    alookup (aset l v x) w = alookup l w := by
  have hvw2 : ¬ v = w := fun h => hvw h.symm
  induction l with
  | nil => simp [aset, alookup, hvw2]
  | cons p l ih =>
    obtain ⟨k, y⟩ := p
    by_cases h : k = v
    · subst h
      simp [aset, alookup, hvw2]
    · simp only [aset, if_neg h, alookup]
      by_cases h2 : k = w
      · simp [h2]
      · simp [h2, ih]

theorem mem_akeys_aset (l : List (T × Int)) (v w : T) (x : Int) :
    w ∈ akeys (aset l v x) ↔ w = v ∨ w ∈ akeys l := by
  induction l with
  | nil => simp [aset, akeys]
  | cons p l ih =>
    obtain ⟨k, y⟩ := p
    by_cases h : k = v
    · subst h
      simp [aset, akeys]
    · simp only [aset, if_neg h, akeys, List.map_cons, List.mem_cons] at ih ⊢
      rw [ih]
      tauto

theorem akeys_aset_nodup (l : List (T × Int)) (v : T) (x : Int)
    (hnd : (akeys l).Nodup) : (akeys (aset l v x)).Nodup := by
  induction l with
  | nil => simp [aset, akeys]
  | cons p l ih =>
    obtain ⟨k, y⟩ := p
    simp only [akeys, List.map_cons, List.nodup_cons] at hnd
    by_cases h : k = v
    · subst h
      have hset : aset ((k, y) :: l) k x = (k, x) :: l := by simp [aset]
      rw [hset]
      simp only [akeys, List.map_cons, List.nodup_cons]
      exact hnd
    · simp only [aset, if_neg h, akeys, List.map_cons, List.nodup_cons]
      refine ⟨?_, ih hnd.2⟩
      intro hmem
      rcases (mem_akeys_aset l v k x).mp hmem with h2 | h2
      · exact h h2
      · exact hnd.1 h2

theorem alookup_aerase_ne (l : List (T × Int)) (v w : T) (hvw : w ≠ v) :
    alookup (aerase l v) w = alookup l w := by
  induction l with
  | nil => simp [aerase]
  | cons p l ih =>
    obtain ⟨k, y⟩ := p
    by_cases h : k = v
    · subst h
      have h2 : ¬ k = w := fun h2 => hvw h2.symm
      simp [aerase, alookup, h2]
    · simp only [aerase, if_neg h, alookup]
      by_cases h2 : k = w
      · simp [h2]
      · simp [h2, ih]

theorem alookup_none_of_not_mem_akeys (l : List (T × Int)) (v : T)
    (h : v ∉ akeys l) : alookup l v = none := by
  induction l with
  | nil => rfl
  | cons p l ih =>
    obtain ⟨k, y⟩ := p
    simp only [akeys, List.map_cons, List.mem_cons, not_or] at h
    have h2 : ¬ k = v := fun h2 => h.1 h2.symm
    simp only [alookup, if_neg h2]
    exact ih h.2

theorem alookup_aerase_self (l : List (T × Int)) (v : T)
    (hnd : (akeys l).Nodup) : alookup (aerase l v) v = none := by
  induction l with
  | nil => rfl
  | cons p l ih =>
    obtain ⟨k, y⟩ := p
    simp only [akeys, List.map_cons, List.nodup_cons] at hnd
    by_cases h : k = v
    · subst h
      simp only [aerase, if_pos rfl]
      exact alookup_none_of_not_mem_akeys l k hnd.1
    · simp only [aerase, if_neg h, alookup, if_neg h]
      exact ih hnd.2

theorem akeys_aerase (l : List (T × Int)) (v : T) :
    akeys (aerase l v) = (akeys l).erase v := by
  induction l with
  | nil => simp [aerase, akeys]
  | cons p l ih =>
    obtain ⟨k, y⟩ := p
    by_cases h : k = v
    · subst h
      simp [aerase, akeys, List.erase_cons_head]
    · simp only [aerase, if_neg h, akeys, List.map_cons] at ih ⊢
      rw [List.erase_cons_tail (by simp [h]), ih]

theorem alookup_isSome_iff_mem_akeys (l : List (T × Int)) (v : T) :
    (alookup l v).isSome ↔ v ∈ akeys l := by
  induction l with
  | nil => simp [alookup, akeys]
  | cons p l ih =>
    obtain ⟨k, y⟩ := p
    by_cases h : k = v
    · subst h
      simp [alookup, akeys]
    · have h2 : ¬ v = k := fun h2 => h h2.symm
      simp [alookup, akeys, h, h2, ih]

theorem mem_of_alookup_eq_some (l : List (T × Int)) (v : T) (x : Int)
    (h : alookup l v = some x) : (v, x) ∈ l := by
  induction l with
  | nil => simp [alookup] at h
  | cons p l ih =>
    obtain ⟨k, y⟩ := p
    by_cases h2 : k = v
    · subst h2
      rw [alookup, if_pos rfl] at h
      obtain rfl : y = x := Option.some.inj h
      exact List.mem_cons_self _ _
    · rw [alookup, if_neg h2] at h
      exact List.mem_cons_of_mem _ (ih h)

theorem alookup_eq_of_mem_nodup (l : List (T × Int)) (p : T × Int)
    (hmem : p ∈ l) (hnd : (akeys l).Nodup) : alookup l p.1 = some p.2 := by
  induction l with
  | nil => simp at hmem
  | cons q l ih =>
    obtain ⟨k, y⟩ := q
    simp only [akeys, List.map_cons, List.nodup_cons] at hnd
    rcases List.mem_cons.mp hmem with h | h
    · subst h
      simp [alookup]
    · have hk : ¬ k = p.1 := by
        intro hkp
        exact hnd.1 (hkp ▸ (List.mem_map.mpr ⟨p, h, rfl⟩))
      simp only [alookup, if_neg hk]
      exact ih h hnd.2

end AListLemmas

/-! ## LIFOBuffer -/

/-- The LIFOBuffer state.  buf is the fixed-size backing array (as a
list whose length equals the capacity), i the write index, n the live
count (a Go int), count the multiplicity map, capacity the fixed
capacity chosen at construction (non-negative once constructed). -/
structure LIFOBuffer (T : Type) where
  buf : List T
  i : Nat
  n : Int
  count : List (T × Int)
  capacity : Nat
deriving DecidableEq, Repr

namespace LIFOBuffer

variable {T : Type} [DecidableEq T] [Inhabited T]

/-- NewLIFOBuffer: make([]T, capacity) panics (none) for a negative
capacity; otherwise the buffer starts zeroed with an empty count map. -/
def NewLIFOBuffer (capacity : Int) : Option (LIFOBuffer T) :=
  if capacity < 0 then none
  else some ⟨List.replicate capacity.toNat default, 0, 0, [], capacity.toNat⟩

/-- incCount: b.n++; b.count[v]++. -/
def incCount (b : LIFOBuffer T) (v : T) : LIFOBuffer T :=
  { b with n := b.n + 1, count := aset b.count v ((alookup b.count v).getD 0 + 1) }

/-- decCount: b.n--; b.count[v]--; delete the key if the count reaches
zero.  (Reading an absent key yields 0, so the key would be stored
with value -1 and kept, exactly as the Go map behaves.) -/
def decCount (b : LIFOBuffer T) (v : T) : LIFOBuffer T :=
  let x := (alookup b.count v).getD 0 - 1
  { b with n := b.n - 1,
           count := if x = 0 then aerase b.count v else aset b.count v x }

/-- Push: if the buffer is full, evict the value at the write index
(b.buf[b.i] panics if out of range), then count and store v at the
write index (panics if out of range) and advance the index modulo the
capacity (panics on modulus by zero). -/
def Push (b : LIFOBuffer T) (v : T) : Option (LIFOBuffer T) :=
  let step1 : Option (LIFOBuffer T) :=
    if b.n = (b.capacity : Int) then
      match b.buf[b.i]? with
      | none => none
      | some old => some (b.decCount old)
    else some b
  match step1 with
  | none => none
  | some b1 =>
    if b.i < b1.buf.length then
      if b.capacity = 0 then none
      else some { b1.incCount v with
                    buf := b1.buf.set b.i v,
                    i := (b.i + 1) % b.capacity }
    else none

/-- Pop: if the live count is zero, report absence; otherwise step the
write index backward modulo the capacity (panics on modulus by zero;
the Go source computes (b.i - 1 + b.capacity) % b.capacity in int
arithmetic, which for 0 <= b.i equals (b.i + b.capacity - 1) %
b.capacity in Nat), read the value there (panics if out of range),
uncount it and return it. -/
def Pop (b : LIFOBuffer T) : Option ((T × Bool) × LIFOBuffer T) :=
  if b.n = 0 then some ((default, false), b)
  else if b.capacity = 0 then none
  else
    let j := (b.i + b.capacity - 1) % b.capacity
    match b.buf[j]? with
    | none => none
    | some v => some ((v, true), { b.decCount v with i := j })

/-- Contains: key presence in the count map. -/
def Contains (b : LIFOBuffer T) (v : T) : Bool :=
  (alookup b.count v).isSome

/-- Len: the live count. -/
def Len (b : LIFOBuffer T) : Int := b.n

/-- Reset: zero the write index and live count and clear the count
map; the backing array keeps its contents. -/
def Reset (b : LIFOBuffer T) : LIFOBuffer T :=
  { b with i := 0, n := 0, count := [] }

/-- The backing-array position holding the k-th most recently pushed
live value (k = 0 is the value the next Pop returns).  The source
addresses it as (i - 1 - k) mod capacity; for 0 <= k < capacity and
0 <= i this equals (i + capacity - 1 - k) % capacity in Nat. -/
def slot (b : LIFOBuffer T) (k : Nat) : Nat :=
  (b.i + b.capacity - 1 - k) % b.capacity

/-- The live contents of the buffer in pop order (most recent first). -/
def live (b : LIFOBuffer T) : List T :=
  (List.range b.n.toNat).map (fun k => (b.buf[b.slot k]?).getD default)

end LIFOBuffer

/-! ## Arithmetic of circular-array slots -/

theorem mod_double (c x : Nat) (hc : 0 < c) (hx : x < 2 * c) :
    x % c = if x < c then x else x - c := by
  by_cases h : x < c
  · rw [if_pos h, Nat.mod_eq_of_lt h]
  · rw [if_neg h, Nat.mod_eq_sub_mod (by omega), Nat.mod_eq_of_lt (by omega)]

theorem slotPushNew (i c : Nat) (hi : i < c) : ((i + 1) % c + c - 1) % c = i := by
  rw [mod_double c (i + 1) (by omega) (by omega)]
  by_cases h : i + 1 < c
  · rw [if_pos h, mod_double c _ (by omega) (by omega)]
    split <;> omega
  · rw [if_neg h, mod_double c _ (by omega) (by omega)]
    split <;> omega

theorem slotPushShift (i c k : Nat) (hi : i < c) (hk : k + 1 < c) :
    ((i + 1) % c + c - 1 - (k + 1)) % c = (i + c - 1 - k) % c := by
  rw [mod_double c (i + 1) (by omega) (by omega)]
  by_cases h : i + 1 < c
  · rw [if_pos h, mod_double c _ (by omega) (by omega),
        mod_double c (i + c - 1 - k) (by omega) (by omega)]
    split <;> split <;> omega
  · rw [if_neg h, mod_double c _ (by omega) (by omega),
        mod_double c (i + c - 1 - k) (by omega) (by omega)]
    split <;> split <;> omega

theorem slotPopShift (i c k : Nat) (hi : i < c) (hk : k + 1 < c) :
    ((i + c - 1) % c + c - 1 - k) % c = (i + c - 1 - (k + 1)) % c := by
  rw [mod_double c (i + c - 1) (by omega) (by omega)]
  by_cases h : i + c - 1 < c
  · rw [if_pos h, mod_double c _ (by omega) (by omega),
        mod_double c (i + c - 1 - (k + 1)) (by omega) (by omega)]
    split <;> split <;> omega
  · rw [if_neg h, mod_double c _ (by omega) (by omega),
        mod_double c (i + c - 1 - (k + 1)) (by omega) (by omega)]
    split <;> split <;> omega

theorem slotNeq (i c k : Nat) (hi : i < c) (hk : k + 1 < c) :
    (i + c - 1 - k) % c ≠ i := by
  rw [mod_double c _ (by omega) (by omega)]
  split <;> omega

theorem slotLast (i c : Nat) (hi : i < c) : (i + c - 1 - (c - 1)) % c = i := by
  rw [mod_double c _ (by omega) (by omega)]
  split <;> omega

theorem slotLt (i c k : Nat) (hc : 0 < c) : (i + c - 1 - k) % c < c :=
  Nat.mod_lt _ hc

theorem map_range_eq_cons {α : Type} (f g : Nat → α) (x : α) (n : Nat)
    (h0 : f 0 = x) (hs : ∀ k, k < n → f (k + 1) = g k) :
    (List.range (n + 1)).map f = x :: (List.range n).map g := by
  rw [List.range_succ_eq_map, List.map_cons, h0, List.map_map]
  congr 1
  apply List.map_congr_left
  intro a ha
  exact hs a (List.mem_range.mp ha)


/-- The count map cnt records exactly the multiplicities of the list l:
no duplicate keys, the stored value of each key is its multiplicity in
l, and a key is present exactly when its multiplicity is positive. -/
def CountOK [DecidableEq T] (cnt : List (T × Int)) (l : List T) : Prop :=
  (akeys cnt).Nodup ∧
  (∀ v, (alookup cnt v).getD 0 = (l.count v : Int)) ∧
  (∀ v, (alookup cnt v).isSome ↔ v ∈ l)

theorem CountOK.nil [DecidableEq T] : CountOK ([] : List (T × Int)) [] := by
  refine ⟨List.nodup_nil, ?_, ?_⟩ <;> intro v <;> simp [alookup]

theorem CountOK.perm [DecidableEq T] {cnt : List (T × Int)} {l l2 : List T}
    (h : CountOK cnt l) (hp : l.Perm l2) : CountOK cnt l2 := by
  obtain ⟨hnd, hcnt, hmem⟩ := h
  refine ⟨hnd, ?_, ?_⟩
  · intro v
    rw [hcnt v, hp.count_eq]
  · intro v
    rw [hmem v, hp.mem_iff]

/-- The effect of incCount on the count map: it tracks consing the
counted value onto the abstract contents. -/
theorem CountOK.inc [DecidableEq T] {cnt : List (T × Int)} {l : List T}
    (h : CountOK cnt l) (v : T) :
    CountOK (aset cnt v ((alookup cnt v).getD 0 + 1)) (v :: l) := by
  obtain ⟨hnd, hcnt, hmem⟩ := h
  refine ⟨akeys_aset_nodup _ _ _ hnd, ?_, ?_⟩
  · intro w
    by_cases hw : w = v
    · subst hw
      rw [alookup_aset_self, hcnt w]
      simp [List.count_cons_self]
    · rw [alookup_aset_ne _ _ _ _ hw, hcnt w, List.count_cons_of_ne hw]
  · intro w
    by_cases hw : w = v
    · subst hw
      rw [alookup_aset_self]
      simp
    · rw [alookup_aset_ne _ _ _ _ hw]
      simp only [List.mem_cons]
      rw [hmem w]
      tauto

/-- The effect of decCount on the count map: it tracks erasing one
occurrence of the counted value from the abstract contents. -/
theorem CountOK.dec [DecidableEq T] {cnt : List (T × Int)} {l : List T}
    (h : CountOK cnt l) {w : T} (hw : w ∈ l) :
    CountOK
      (if (alookup cnt w).getD 0 - 1 = 0 then aerase cnt w
       else aset cnt w ((alookup cnt w).getD 0 - 1))
      (l.erase w) := by
  obtain ⟨hnd, hcnt, hmem⟩ := h
  have hcw : 1 ≤ l.count w := List.count_pos_iff.mpr hw
  have hce : ((l.erase w).count w : Int) = (l.count w : Int) - 1 := by
    rw [List.count_erase_self]
    omega
  by_cases hz : (alookup cnt w).getD 0 - 1 = 0
  · rw [if_pos hz]
    refine ⟨by rw [akeys_aerase]; exact hnd.erase w, ?_, ?_⟩
    · intro u
      by_cases hu : u = w
      · subst hu
        rw [alookup_aerase_self _ _ hnd]
        have := hcnt u
        simp only [Option.getD_none]
        omega
      · rw [alookup_aerase_ne _ _ _ hu, hcnt u, List.count_erase_of_ne hu]
    · intro u
      by_cases hu : u = w
      · subst hu
        rw [alookup_aerase_self _ _ hnd]
        have h1 := hcnt u
        have h2 : (l.erase u).count u = 0 := by omega
        simp only [Option.isSome_none, Bool.false_eq_true, false_iff]
        exact List.count_eq_zero.mp h2
      · rw [alookup_aerase_ne _ _ _ hu, hmem u]
        constructor
        · intro hm
          exact (List.mem_erase_of_ne hu).mpr hm
        · exact List.mem_of_mem_erase
  · rw [if_neg hz]
    refine ⟨akeys_aset_nodup _ _ _ hnd, ?_, ?_⟩
    · intro u
      by_cases hu : u = w
      · subst hu
        rw [alookup_aset_self]
        simp only [Option.getD_some]
        rw [hcnt u] at hz ⊢
        omega
      · rw [alookup_aset_ne _ _ _ _ hu, hcnt u, List.count_erase_of_ne hu]
    · intro u
      by_cases hu : u = w
      · subst hu
        rw [alookup_aset_self]
        rw [hcnt u] at hz
        simp only [Option.isSome_some, true_iff]
        have : 0 < (l.erase u).count u := by omega
        exact List.count_pos_iff.mp this
      · rw [alookup_aset_ne _ _ _ _ hu, hmem u]
        constructor
        · intro hm
          exact (List.mem_erase_of_ne hu).mpr hm
        · exact List.mem_of_mem_erase

namespace LIFOBuffer

variable {T : Type} [DecidableEq T] [Inhabited T]

/-- Well-formedness of a LIFOBuffer, as established by NewLIFOBuffer
and preserved by every successful operation: the backing array has
exactly capacity cells, the live count is between 0 and the capacity,
the write index is in range (and 0 when the capacity is 0), and the
count map records exactly the multiplicities of the live values. -/
def WF (b : LIFOBuffer T) : Prop :=
  b.buf.length = b.capacity ∧
  0 ≤ b.n ∧ b.n ≤ (b.capacity : Int) ∧
  (0 < b.capacity → b.i < b.capacity) ∧
  (b.capacity = 0 → b.i = 0) ∧
  CountOK b.count b.live

theorem decCount_count (b : LIFOBuffer T) (w : T) :
    (b.decCount w).count =
      if (alookup b.count w).getD 0 - 1 = 0 then aerase b.count w
      else aset b.count w ((alookup b.count w).getD 0 - 1) := rfl

theorem incCount_count (b : LIFOBuffer T) (v : T) :
    (b.incCount v).count = aset b.count v ((alookup b.count v).getD 0 + 1) := rfl

@[simp] theorem decCount_buf (b : LIFOBuffer T) (w : T) : (b.decCount w).buf = b.buf := rfl

@[simp] theorem decCount_i (b : LIFOBuffer T) (w : T) : (b.decCount w).i = b.i := rfl

@[simp] theorem decCount_n (b : LIFOBuffer T) (w : T) : (b.decCount w).n = b.n - 1 := rfl

@[simp] theorem decCount_capacity (b : LIFOBuffer T) (w : T) :
    (b.decCount w).capacity = b.capacity := rfl

@[simp] theorem incCount_buf (b : LIFOBuffer T) (v : T) : (b.incCount v).buf = b.buf := rfl

@[simp] theorem incCount_i (b : LIFOBuffer T) (v : T) : (b.incCount v).i = b.i := rfl

@[simp] theorem incCount_n (b : LIFOBuffer T) (v : T) : (b.incCount v).n = b.n + 1 := rfl

@[simp] theorem incCount_capacity (b : LIFOBuffer T) (v : T) :
    (b.incCount v).capacity = b.capacity := rfl

theorem length_live (b : LIFOBuffer T) : b.live.length = b.n.toNat := by
  simp [live]

theorem slot_eq (b : LIFOBuffer T) (k : Nat) :
    b.slot k = (b.i + b.capacity - 1 - k) % b.capacity := rfl

/-- A non-empty live list in cons shape: the head is the value at
slot 0, the tail reads slots 1, 2, ... -/
theorem live_cons_shape (b : LIFOBuffer T) (m : Nat) (hm : b.n.toNat = m + 1) :
    b.live = (b.buf[b.slot 0]?).getD default ::
      (List.range m).map
        (fun k => (b.buf[(b.i + b.capacity - 1 - (k + 1)) % b.capacity]?).getD default) := by
  show (List.range b.n.toNat).map _ = _
  rw [hm]
  apply map_range_eq_cons
  · rfl
  · intro k _
    rfl

/-- A non-empty live list in concat shape: the last element (the
oldest live value) is the one at slot m. -/
theorem live_concat_shape (b : LIFOBuffer T) (m : Nat) (hm : b.n.toNat = m + 1) :
    b.live = (List.range m).map (fun k => (b.buf[b.slot k]?).getD default) ++
      [(b.buf[b.slot m]?).getD default] := by
  show (List.range b.n.toNat).map _ = _
  rw [hm, List.range_succ, List.map_append]
  rfl

/-- Live contents after storing v at the write index and advancing
it: v followed by the previous reads of slots 0 .. m-1. -/
theorem live_push_shape (buf : List T) (i : Nat) (v : T) (n2 : Int)
    (cnt : List (T × Int)) (c m : Nat)
    (hi : i < c) (hlen : buf.length = c) (hm : n2.toNat = m + 1) (hmc : m + 1 ≤ c) :
    live ⟨buf.set i v, (i + 1) % c, n2, cnt, c⟩ =
      v :: (List.range m).map (fun k => (buf[(i + c - 1 - k) % c]?).getD default) := by
  show (List.range n2.toNat).map _ = _
  rw [hm]
  apply map_range_eq_cons
  · show ((buf.set i v)[((i + 1) % c + c - 1 - 0) % c]?).getD default = v
    rw [Nat.sub_zero, slotPushNew i c hi,
        List.getElem?_set_self (by rwa [hlen])]
    rfl
  · intro k hk
    show ((buf.set i v)[((i + 1) % c + c - 1 - (k + 1)) % c]?).getD default = _
    rw [slotPushShift i c k hi (by omega),
        List.getElem?_set_ne (Ne.symm (slotNeq i c k hi (by omega)))]

/-- Live contents after stepping the write index backward: the
previous reads of slots 1 .. m. -/
theorem live_pop_shape (buf : List T) (i : Nat) (n2 : Int)
    (cnt : List (T × Int)) (c m : Nat)
    (hi : i < c) (hm : n2.toNat = m) (hmc : m + 1 ≤ c) :
    live ⟨buf, (i + c - 1) % c, n2, cnt, c⟩ =
      (List.range m).map (fun k => (buf[(i + c - 1 - (k + 1)) % c]?).getD default) := by
  show (List.range n2.toNat).map _ = _
  rw [hm]
  apply List.map_congr_left
  intro k hk
  have hk2 := List.mem_range.mp hk
  show (buf[((i + c - 1) % c + c - 1 - k) % c]?).getD default = _
  rw [slotPopShift i c k hi (by omega)]

/-- Specification of Push on a well-formed buffer of positive
capacity: it succeeds, preserves well-formedness, and the live
contents become v consed onto the previous contents, truncated to the
capacity (dropping the oldest value when full). -/
theorem Push_spec (b : LIFOBuffer T) (v : T) (hwf : b.WF) (hc : 0 < b.capacity) :
    ∃ b2, b.Push v = some b2 ∧ b2.WF ∧
      b2.live = (v :: b.live).take b.capacity ∧
      b2.buf.length = b.buf.length ∧ b2.capacity = b.capacity := by
  obtain ⟨hlen, hn0, hnc, hic, hi0, hco⟩ := hwf
  have hi : b.i < b.capacity := hic hc
  have hilen : b.i < b.buf.length := by omega
  have hlive : b.live = (List.range b.n.toNat).map
      (fun k => (b.buf[(b.i + b.capacity - 1 - k) % b.capacity]?).getD default) := rfl
  by_cases hfull : b.n = (b.capacity : Int)
  · -- full: the oldest value is evicted
    obtain ⟨old, hold⟩ : ∃ x, b.buf[b.i]? = some x :=
      ⟨_, List.getElem?_eq_getElem hilen⟩
    have hm : b.n.toNat = (b.capacity - 1) + 1 := by omega
    have hslotlast : b.slot (b.capacity - 1) = b.i := slotLast b.i b.capacity hi
    have hconcat := live_concat_shape b (b.capacity - 1) hm
    rw [hslotlast, hold] at hconcat
    simp only [Option.getD_some, slot_eq] at hconcat
    have holdmem : old ∈ b.live := by
      rw [hconcat]
      simp
    have hALen : ((List.range (b.capacity - 1)).map
        (fun k => (b.buf[(b.i + b.capacity - 1 - k) % b.capacity]?).getD default)).length
        = b.capacity - 1 := by
      simp
    have hlive2 := live_push_shape b.buf b.i v ((b.n - 1) + 1)
      (((b.decCount old).incCount v).count) b.capacity (b.capacity - 1)
      hi hlen (by omega) (by omega)
    refine ⟨⟨b.buf.set b.i v, (b.i + 1) % b.capacity, (b.n - 1) + 1,
            ((b.decCount old).incCount v).count, b.capacity⟩, ?_, ?_, ?_, ?_, rfl⟩
    · unfold Push
      rw [if_pos hfull, hold]
      show (if b.i < b.buf.length then _ else none) = _
      rw [if_pos hilen, if_neg (by omega : ¬ b.capacity = 0)]
      rfl
    · -- well-formedness
      refine ⟨?_, ?_, ?_, ?_, ?_, ?_⟩
      · show (b.buf.set b.i v).length = b.capacity
        rw [List.length_set, hlen]
      · show (0 : Int) ≤ (b.n - 1) + 1
        omega
      · show (b.n - 1) + 1 ≤ (b.capacity : Int)
        omega
      · show 0 < b.capacity → (b.i + 1) % b.capacity < b.capacity
        intro h
        exact Nat.mod_lt _ h
      · show b.capacity = 0 → (b.i + 1) % b.capacity = 0
        intro h
        omega
      · show CountOK (((b.decCount old).incCount v).count) _
        rw [hlive2]
        have hcok : CountOK (((b.decCount old).incCount v).count)
            (v :: b.live.erase old) := by
          rw [incCount_count, decCount_count]
          exact (hco.dec holdmem).inc v
        have herase : (b.live.erase old).Perm ((List.range (b.capacity - 1)).map
            (fun k => (b.buf[(b.i + b.capacity - 1 - k) % b.capacity]?).getD default)) := by
          have h1 := (List.perm_append_singleton old ((List.range (b.capacity - 1)).map
            (fun k => (b.buf[(b.i + b.capacity - 1 - k) % b.capacity]?).getD default))).erase old
          rw [List.erase_cons_head] at h1
          rw [hconcat]
          exact h1
        exact hcok.perm (herase.cons v)
    · -- live contents
      show live _ = _
      rw [hlive2]
      have hc1 : b.capacity = (b.capacity - 1) + 1 := by omega
      conv_rhs => rw [hc1]
      rw [List.take_succ_cons]
      congr 1
      rw [hconcat, List.take_left' hALen]
    · show (b.buf.set b.i v).length = b.buf.length
      rw [List.length_set]
  · -- not full: no eviction
    have hnlt : b.n.toNat < b.capacity := by omega
    have hlive2 := live_push_shape b.buf b.i v (b.n + 1)
      ((b.incCount v).count) b.capacity b.n.toNat
      hi hlen (by omega) (by omega)
    rw [← hlive] at hlive2
    refine ⟨⟨b.buf.set b.i v, (b.i + 1) % b.capacity, b.n + 1,
            ((b.incCount v).count), b.capacity⟩, ?_, ?_, ?_, ?_, rfl⟩
    · unfold Push
      rw [if_neg hfull]
      show (if b.i < b.buf.length then _ else none) = _
      rw [if_pos hilen, if_neg (by omega : ¬ b.capacity = 0)]
      rfl
    · -- well-formedness
      refine ⟨?_, ?_, ?_, ?_, ?_, ?_⟩
      · show (b.buf.set b.i v).length = b.capacity
        rw [List.length_set, hlen]
      · show (0 : Int) ≤ b.n + 1
        omega
      · show b.n + 1 ≤ (b.capacity : Int)
        omega
      · show 0 < b.capacity → (b.i + 1) % b.capacity < b.capacity
        intro h
        exact Nat.mod_lt _ h
      · show b.capacity = 0 → (b.i + 1) % b.capacity = 0
        intro h
        omega
      · show CountOK ((b.incCount v).count) _
        rw [hlive2]
        rw [incCount_count]
        exact hco.inc v
    · -- live contents
      show live _ = _
      rw [hlive2]
      rw [List.take_of_length_le]
      simp only [List.length_cons, length_live]
      omega
    · show (b.buf.set b.i v).length = b.buf.length
      rw [List.length_set]

/-- Specification of Pop on a non-empty well-formed buffer: it
succeeds with the most recently pushed live value (the head of the
live contents), preserves well-formedness, and the live contents lose
their head. -/
theorem Pop_spec_pos (b : LIFOBuffer T) (hwf : b.WF) (hn : b.n ≠ 0) :
    ∃ b2, b.Pop = some ((b.live.headI, true), b2) ∧ b2.WF ∧
      b2.live = b.live.tail ∧ b2.buf.length = b.buf.length ∧
      b2.capacity = b.capacity ∧ b2.n = b.n - 1 := by
  obtain ⟨hlen, hn0, hnc, hic, hi0, hco⟩ := hwf
  have hc : 0 < b.capacity := by omega
  have hi : b.i < b.capacity := hic hc
  have hjc : (b.i + b.capacity - 1) % b.capacity < b.capacity := Nat.mod_lt _ hc
  have hjlen : (b.i + b.capacity - 1) % b.capacity < b.buf.length := by omega
  obtain ⟨v0, hv0⟩ : ∃ x, b.buf[(b.i + b.capacity - 1) % b.capacity]? = some x :=
    ⟨_, List.getElem?_eq_getElem hjlen⟩
  have hm : b.n.toNat = (b.n.toNat - 1) + 1 := by omega
  have hcons := live_cons_shape b (b.n.toNat - 1) hm
  have hslot0 : b.slot 0 = (b.i + b.capacity - 1) % b.capacity := by
    show (b.i + b.capacity - 1 - 0) % b.capacity = _
    rw [Nat.sub_zero]
  rw [hslot0, hv0] at hcons
  have hhead : b.live.headI = v0 := by
    rw [hcons]
    rfl
  have hlive2 := live_pop_shape b.buf b.i (b.n - 1) ((b.decCount v0).count)
    b.capacity (b.n.toNat - 1) hi (by omega) (by omega)
  refine ⟨⟨b.buf, (b.i + b.capacity - 1) % b.capacity, b.n - 1,
          (b.decCount v0).count, b.capacity⟩, ?_, ?_, ?_, rfl, rfl, rfl⟩
  · unfold Pop
    rw [if_neg hn, if_neg (by omega : ¬ b.capacity = 0)]
    show (match b.buf[(b.i + b.capacity - 1) % b.capacity]? with
          | none => none
          | some v => some ((v, true),
              { b.decCount v with i := (b.i + b.capacity - 1) % b.capacity })) = _
    rw [hv0, hhead]
    rfl
  · -- well-formedness
    refine ⟨?_, ?_, ?_, ?_, ?_, ?_⟩
    · show b.buf.length = b.capacity
      exact hlen
    · show (0 : Int) ≤ b.n - 1
      omega
    · show b.n - 1 ≤ (b.capacity : Int)
      omega
    · show 0 < b.capacity → (b.i + b.capacity - 1) % b.capacity < b.capacity
      intro h
      exact Nat.mod_lt _ h
    · show b.capacity = 0 → (b.i + b.capacity - 1) % b.capacity = 0
      intro h
      omega
    · show CountOK ((b.decCount v0).count) _
      rw [hlive2]
      have hv0mem : v0 ∈ b.live := by
        rw [hcons]
        exact List.mem_cons_self _ _
      have hcok : CountOK ((b.decCount v0).count) (b.live.erase v0) := by
        rw [decCount_count]
        exact hco.dec hv0mem
      have herase : b.live.erase v0 = (List.range (b.n.toNat - 1)).map
          (fun k => (b.buf[(b.i + b.capacity - 1 - (k + 1)) % b.capacity]?).getD default) := by
        rw [hcons]
        exact List.erase_cons_head _ _
      rw [herase] at hcok
      exact hcok
  · -- live contents
    show live _ = _
    rw [hlive2, hcons]
    rfl

/-- Pop on an empty buffer reports absence and leaves the buffer
unchanged. -/
theorem Pop_spec_zero (b : LIFOBuffer T) (hn : b.n = 0) :
    b.Pop = some ((default, false), b) := by
  unfold Pop
  rw [if_pos hn]

/-- Under well-formedness, Contains answers membership in the live
contents. -/
theorem Contains_iff_mem_live (b : LIFOBuffer T) (hwf : b.WF) (v : T) :
    b.Contains v = true ↔ v ∈ b.live := by
  unfold Contains
  exact hwf.2.2.2.2.2.2.2 v

/-- Reset yields a well-formed empty buffer of the same capacity. -/
theorem Reset_spec (b : LIFOBuffer T) (hlen : b.buf.length = b.capacity) :
    b.Reset.WF ∧ b.Reset.live = [] ∧ b.Reset.capacity = b.capacity := by
  refine ⟨⟨hlen, ?_, ?_, ?_, fun _ => rfl, ?_⟩, ?_, rfl⟩
  · show (0 : Int) ≤ 0
    omega
  · show (0 : Int) ≤ (b.capacity : Int)
    omega
  · intro h
    show 0 < b.capacity
    exact h
  · show CountOK [] (live _)
    have : live (b.Reset) = [] := by
      show (List.range (0 : Int).toNat).map _ = []
      simp
    rw [this]
    exact CountOK.nil
  · show (List.range (0 : Int).toNat).map _ = []
    simp

/-- NewLIFOBuffer with a non-negative capacity yields a well-formed
empty buffer. -/
theorem NewLIFOBuffer_spec (c : Int) (hc : 0 ≤ c) :
    ∃ b : LIFOBuffer T, NewLIFOBuffer c = some b ∧ b.WF ∧ b.live = [] ∧
      b.capacity = c.toNat ∧ b.n = 0 := by
  refine ⟨⟨List.replicate c.toNat default, 0, 0, [], c.toNat⟩, ?_, ?_, ?_, rfl, rfl⟩
  · unfold NewLIFOBuffer
    rw [if_neg (by omega : ¬ c < 0)]
  · refine ⟨?_, ?_, ?_, ?_, fun _ => rfl, ?_⟩
    · show (List.replicate c.toNat default).length = c.toNat
      simp
    · show (0 : Int) ≤ 0
      omega
    · show (0 : Int) ≤ (c.toNat : Int)
      omega
    · intro h
      show 0 < c.toNat
      exact h
    show CountOK [] (live _)
    have : live ⟨List.replicate c.toNat default, 0, 0, [], c.toNat⟩ = ([] : List T) := by
      show (List.range (0 : Int).toNat).map _ = []
      simp
    rw [this]
    exact CountOK.nil
  · show (List.range (0 : Int).toNat).map _ = []
    simp

end LIFOBuffer

/-! ## Robin -/

/-- The Robin state.  ring is the circular doubly-linked list of
values in rotation order starting at the cursor r.next (empty list =
nil cursor); nodes is the key set of the value-to-node map; maxLen is
0 for an unbounded robin; buffer is the optional overflow buffer. -/
structure Robin (T : Type) where
  ring : List T
  nodes : List T
  maxLen : Nat
  buffer : Option (LIFOBuffer T)
deriving DecidableEq, Repr

namespace Robin

variable {T : Type} [DecidableEq T] [Inhabited T]

/-- NewUnbounded: empty ring and index, no bound, no buffer. -/
def NewUnbounded : Robin T := ⟨[], [], 0, none⟩

/-- NewBounded: a non-positive length yields an unbounded robin and
ignores the buffer option; otherwise the bound and the optional
buffer (the WithBuffer option) are installed. -/
def NewBounded (len : Int) (buffer : Option (LIFOBuffer T)) : Robin T :=
  if len ≤ 0 then NewUnbounded else ⟨[], [], len.toNat, buffer⟩

/-- attach: splice the chain of newly created nodes between the node
before the cursor and the cursor, and move the cursor to the head of
the chain.  In rotation order starting at the cursor this is
prepending the chain; when the ring was empty the chain becomes the
whole ring, which the same prepending yields. -/
def attach (r : Robin T) (chain : List T) : Robin T :=
  { r with ring := chain ++ r.ring }

/-- The loop of Add over the candidate values, carrying the chain of
newly created nodes: a value already indexed is skipped; at the bound
with no buffer the loop stops (break); at the bound with a buffer the
value is pushed unless the buffer contains it; otherwise the value is
indexed and appended to the chain. -/
def addLoop (r : Robin T) (chain : List T) : List T → Option (Robin T × List T)
  | [] => some (r, chain)
  | v :: vs =>
    if v ∈ r.nodes then addLoop r chain vs
    else if 0 < r.maxLen ∧ r.nodes.length = r.maxLen then
      match r.buffer with
      | none => some (r, chain)
      | some b =>
        if b.Contains v then addLoop r chain vs
        else
          match b.Push v with
          | none => none
          | some b2 => addLoop { r with buffer := some b2 } chain vs
    else addLoop { r with nodes := r.nodes.insert v } (chain ++ [v]) vs

/-- Add: a full bounded robin without buffer returns immediately;
otherwise the loop runs and the resulting chain is attached in front
of the cursor. -/
def Add (r : Robin T) (vs : List T) : Option (Robin T) :=
  if 0 < r.maxLen ∧ r.nodes.length = r.maxLen ∧ r.buffer = none then some r
  else
    match r.addLoop [] vs with
    | none => none
    | some (r2, chain) => some (r2.attach chain)

/-- unlink: remove the node holding v from the ring.  In rotation
order this is erasing the value: erasing the only element leaves the
empty ring (cursor reset to nil), erasing the head encodes advancing
the cursor to the removed node's successor, and erasing any other
element splices it out of the cycle. -/
def unlink (r : Robin T) (v : T) : Robin T := { r with ring := r.ring.erase v }

/-- replaceValue: with a buffer, pop; on a successful pop overwrite
the removed node's value in place (the node still sits in the ring)
and index the node under the popped value.  Reports whether a
replacement happened.  (A failed pop leaves the buffer unchanged, so
re-storing it is a no-op.) -/
def replaceValue (r : Robin T) (v : T) : Option (Bool × Robin T) :=
  match r.buffer with
  | none => some (false, r)
  | some b =>
    match b.Pop with
    | none => none
    | some ((w, ok), b2) =>
      if ok then
        some (true, { r with ring := r.ring.replace v w,
                             nodes := r.nodes.insert w,
                             buffer := some b2 })
      else some (false, { r with buffer := some b2 })

/-- One iteration of the Remove loop: values not in the index are
ignored; otherwise the value is unindexed and the node is either
refilled from the buffer or unlinked. -/
def removeOne (r : Robin T) (v : T) : Option (Robin T) :=
  if v ∈ r.nodes then
    match ({ r with nodes := r.nodes.erase v } : Robin T).replaceValue v with
    | none => none
    | some (true, r2) => some r2
    | some (false, r2) => some (r2.unlink v)
  else some r

/-- Remove: the loop over the values to remove. -/
def Remove : Robin T → List T → Option (Robin T)
  | r, [] => some r
  | r, v :: vs =>
    match r.removeOne v with
    | none => none
    | some r2 => Remove r2 vs

/-- Next: on an empty ring report absence; otherwise return the
cursor's value and advance the cursor to its successor. -/
def Next (r : Robin T) : (T × Bool) × Robin T :=
  match r.ring with
  | [] => ((default, false), r)
  | v :: rest => ((v, true), { r with ring := rest ++ [v] })

/-- Contains: membership in the index. -/
def Contains (r : Robin T) (v : T) : Bool := decide (v ∈ r.nodes)

/-- BufferContains: false without a buffer. -/
def BufferContains (r : Robin T) (v : T) : Bool :=
  match r.buffer with
  | none => false
  | some b => b.Contains v

/-- Len: the size of the index. -/
def Len (r : Robin T) : Nat := r.nodes.length

/-- BufferLen: 0 without a buffer. -/
def BufferLen (r : Robin T) : Int :=
  match r.buffer with
  | none => 0
  | some b => b.Len

/-- Reset: clear the ring and the index; reset the buffer when one is
present. -/
def Reset (r : Robin T) : Robin T :=
  match r.buffer with
  | none => { r with ring := [], nodes := [] }
  | some b => { r with ring := [], nodes := [], buffer := some b.Reset }

/-! ### Iterated Next -/

/-- The robin state after n calls to Next. -/
def nextIter (r : Robin T) : Nat → Robin T
  | 0 => r
  | n + 1 => ((nextIter r n).Next).2

/-- The outputs (value, presence flag) of n successive calls to Next. -/
def nextList (r : Robin T) : Nat → List (T × Bool)
  | 0 => []
  | n + 1 => r.Next.1 :: (r.Next.2.nextList n)

theorem Next_snd_ring (r : Robin T) : (r.Next).2.ring = r.ring.rotate 1 := by
  obtain ⟨rg, nd, m, bf⟩ := r
  cases rg with
  | nil => rfl
  | cons v rest =>
    show rest ++ [v] = (v :: rest).rotate 1
    rw [show (1 : Nat) = 0 + 1 from rfl, List.rotate_cons_succ, List.rotate_zero]

theorem Next_snd_nodes (r : Robin T) : (r.Next).2.nodes = r.nodes := by
  obtain ⟨rg, nd, m, bf⟩ := r
  cases rg <;> rfl

theorem Next_snd_maxLen (r : Robin T) : (r.Next).2.maxLen = r.maxLen := by
  obtain ⟨rg, nd, m, bf⟩ := r
  cases rg <;> rfl

theorem Next_snd_buffer (r : Robin T) : (r.Next).2.buffer = r.buffer := by
  obtain ⟨rg, nd, m, bf⟩ := r
  cases rg <;> rfl

theorem Next_fst_of_ne_nil (r : Robin T) (h : r.ring ≠ []) :
    (r.Next).1 = (r.ring.headI, true) := by
  obtain ⟨rg, nd, m, bf⟩ := r
  cases rg with
  | nil => exact absurd rfl h
  | cons v rest => rfl

theorem Next_fst_of_nil (r : Robin T) (h : r.ring = []) :
    (r.Next).1 = (default, false) := by
  obtain ⟨rg, nd, m, bf⟩ := r
  cases rg with
  | nil => rfl
  | cons v rest => simp at h

theorem nextIter_ring (r : Robin T) (n : Nat) :
    (r.nextIter n).ring = r.ring.rotate n := by
  induction n with
  | zero =>
    show r.ring = r.ring.rotate 0
    rw [List.rotate_zero]
  | succ n ih =>
    show ((r.nextIter n).Next).2.ring = _
    rw [Next_snd_ring, ih, List.rotate_rotate]

/-- The outputs of n calls to Next on a non-empty ring: the k-th call
returns the head of the ring rotated k steps, with flag true. -/
theorem nextList_spec (n : Nat) (r : Robin T) (h : r.ring ≠ []) :
    r.nextList n = (List.range n).map (fun k => ((r.ring.rotate k).headI, true)) := by
  induction n generalizing r with
  | zero => rfl
  | succ n ih =>
    show r.Next.1 :: (r.Next.2.nextList n) = _
    have h2 : r.Next.2.ring ≠ [] := by
      rw [Next_snd_ring]
      intro hx
      apply h
      have := congrArg List.length hx
      rw [List.length_rotate] at this
      exact List.length_eq_zero.mp this
    rw [Next_fst_of_ne_nil r h, ih _ h2, List.range_succ_eq_map, List.map_cons,
        List.map_map]
    congr 1
    · rw [List.rotate_zero]
    · apply List.map_congr_left
      intro k _
      show (((r.Next.2.ring).rotate k).headI, true) = _
      rw [Next_snd_ring, List.rotate_rotate, Nat.add_comm 1 k]
      rfl

/-- The head of a rotation of a three-element list, by the residue of
the rotation count. -/
theorem rotate3_headI (a b c : T) (k : Nat) :
    (([a, b, c] : List T).rotate k).headI =
      if k % 3 = 0 then a else if k % 3 = 1 then b else c := by
  have hlen : ([a, b, c] : List T).length = 3 := rfl
  rw [← List.rotate_mod, hlen]
  have hm : k % 3 = 0 ∨ k % 3 = 1 ∨ k % 3 = 2 := by omega
  rcases hm with h | h | h <;> rw [h] <;> rfl

/-- One fresh value, with room available: the loop indexes it and
appends it to the chain. -/
theorem addLoop_fresh (r : Robin T) (chain : List T) (v : T)
    (hv : v ∉ r.nodes) (hfull : ¬ (0 < r.maxLen ∧ r.nodes.length = r.maxLen)) :
    r.addLoop chain [v] = some ({ r with nodes := r.nodes.insert v }, chain ++ [v]) := by
  unfold addLoop
  rw [if_neg hv, if_neg hfull]
  rfl

/-- Adding one fresh value with room available: it is indexed and
spliced in front of the cursor. -/
theorem Add_fresh_single (r : Robin T) (v : T) (hv : v ∉ r.nodes)
    (hfull : ¬ (0 < r.maxLen ∧ r.nodes.length = r.maxLen)) :
    r.Add [v] = some { r with ring := v :: r.ring, nodes := r.nodes.insert v } := by
  unfold Add
  rw [if_neg (fun hx => hfull ⟨hx.1, hx.2.1⟩), addLoop_fresh r [] v hv hfull]
  rfl

/-- Remove of a present value when no replacement can happen (no
buffer, or an empty buffer): the value is unindexed and its node is
unlinked. -/
theorem removeOne_unlink (r : Robin T) (v : T) (hv : v ∈ r.nodes)
    (hb : r.buffer = none ∨ ∃ bb, r.buffer = some bb ∧ bb.n = 0) :
    r.removeOne v = some { r with ring := r.ring.erase v, nodes := r.nodes.erase v } := by
  obtain ⟨rg, nd, m, bf⟩ := r
  rcases hb with hb | ⟨bb, hb, hn⟩
  · have hb2 : bf = none := hb
    subst hb2
    unfold removeOne
    rw [if_pos hv]
    rfl
  · have hb2 : bf = some bb := hb
    subst hb2
    unfold removeOne
    rw [if_pos hv]
    simp only [replaceValue, LIFOBuffer.Pop_spec_zero bb hn]
    rfl

/-- The effect of the Add loop on the buffer of a robin that is and
stays at its bound: every candidate value that is neither indexed nor
already buffered is pushed, in call order. -/
def overflowAdd (nodes : List T) : LIFOBuffer T → List T → Option (LIFOBuffer T)
  | b, [] => some b
  | b, v :: vs =>
    if v ∈ nodes then overflowAdd nodes b vs
    else if b.Contains v then overflowAdd nodes b vs
    else
      match b.Push v with
      | none => none
      | some b2 => overflowAdd nodes b2 vs

/-- The Add loop on a robin at its bound with a buffer: the index,
ring and chain never change, and the buffer evolves by overflowAdd. -/
theorem addLoop_full (rg nd : List T) (m : Nat) (b : LIFOBuffer T)
    (chain vs : List T) (hm : 0 < m) (hlen : nd.length = m) :
    (⟨rg, nd, m, some b⟩ : Robin T).addLoop chain vs =
      (overflowAdd nd b vs).map (fun b2 => ((⟨rg, nd, m, some b2⟩ : Robin T), chain)) := by
  induction vs generalizing b with
  | nil => rfl
  | cons v vs ih =>
    show (if v ∈ nd then _ else _) = _
    by_cases hv : v ∈ nd
    · rw [if_pos hv]
      show (⟨rg, nd, m, some b⟩ : Robin T).addLoop chain vs = _
      rw [ih b]
      congr 1
      show overflowAdd nd b vs = _
      rw [show overflowAdd nd b (v :: vs) = overflowAdd nd b vs from by
        simp only [overflowAdd]
        rw [if_pos hv]]
    · rw [if_neg hv, if_pos ⟨hm, hlen⟩]
      show (if b.Contains v = true then _ else _) = _
      by_cases hcv : b.Contains v = true
      · rw [if_pos hcv]
        show (⟨rg, nd, m, some b⟩ : Robin T).addLoop chain vs = _
        rw [ih b]
        congr 1
        rw [show overflowAdd nd b (v :: vs) = overflowAdd nd b vs from by
          simp only [overflowAdd]
          rw [if_neg hv, if_pos hcv]]
      · rw [if_neg hcv]
        rw [show overflowAdd nd b (v :: vs) =
              (match b.Push v with
               | none => none
               | some b2 => overflowAdd nd b2 vs) from by
          simp only [overflowAdd]
          rw [if_neg hv, if_neg hcv]]
        cases hp : b.Push v with
        | none => rfl
        | some b2 =>
          show (⟨rg, nd, m, some b2⟩ : Robin T).addLoop chain vs = _
          rw [ih b2]

/-- A duplicate-free list whose members are all equal to one of its
members is the singleton of that member. -/
theorem nodup_all_eq_singleton (l : List T) (v : T)
    (hnd : l.Nodup) (hmem : v ∈ l) (hall : ∀ x ∈ l, x = v) : l = [v] := by
  cases l with
  | nil => simp at hmem
  | cons x t =>
    obtain rfl : x = v := hall x (List.mem_cons_self _ _)
    rw [List.nodup_cons] at hnd
    have ht : t = [] := by
      cases t with
      | nil => rfl
      | cons y u =>
        obtain rfl : y = x := hall y (List.mem_cons_of_mem _ (List.mem_cons_self _ _))
        exact absurd (List.mem_cons_self _ _) hnd.1
    rw [ht]

end Robin

/-! ## List.replace lemmas (replacement keeps one node in place) -/

section ReplaceLemmas

variable [DecidableEq T]

theorem replace_cons_of_ne (a : T) (t : List T) (v w : T) (h : ¬ v = a) :
    (a :: t).replace v w = a :: t.replace v w := by
  rw [List.replace_cons]
  rw [show (v == a) = false from beq_eq_false_iff_ne.mpr h]

theorem mem_replace_or (l : List T) (v w x : T) (hx : x ∈ l.replace v w) :
    x = w ∨ x ∈ l := by
  induction l with
  | nil => simp [List.replace] at hx
  | cons a t ih =>
    by_cases ha : v = a
    · subst ha
      rw [List.replace_cons_self] at hx
      rcases List.mem_cons.mp hx with h | h
      · exact Or.inl h
      · exact Or.inr (List.mem_cons_of_mem _ h)
    · rw [replace_cons_of_ne a t v w ha] at hx
      rcases List.mem_cons.mp hx with h | h
      · exact Or.inr (h ▸ List.mem_cons_self _ _)
      · rcases ih h with h2 | h2
        · exact Or.inl h2
        · exact Or.inr (List.mem_cons_of_mem _ h2)

theorem nodup_replace (l : List T) (v w : T) (hnd : l.Nodup) (hw : w ∉ l) :
    (l.replace v w).Nodup := by
  induction l with
  | nil => simp [List.replace]
  | cons a t ih =>
    rw [List.nodup_cons] at hnd
    simp only [List.mem_cons, not_or] at hw
    by_cases ha : v = a
    · subst ha
      rw [List.replace_cons_self, List.nodup_cons]
      exact ⟨hw.2, hnd.2⟩
    · rw [replace_cons_of_ne a t v w ha, List.nodup_cons]
      refine ⟨?_, ih hnd.2 hw.2⟩
      intro hmem
      rcases mem_replace_or t v w a hmem with h | h
      · exact hw.1 h.symm
      · exact hnd.1 h

theorem mem_replace_iff (l : List T) (v w x : T)
    (hnd : l.Nodup) (hv : v ∈ l) (hw : w ∉ l) :
    x ∈ l.replace v w ↔ x = w ∨ (x ∈ l ∧ x ≠ v) := by
  induction l with
  | nil => simp at hv
  | cons a t ih =>
    rw [List.nodup_cons] at hnd
    simp only [List.mem_cons, not_or] at hw
    by_cases ha : v = a
    · subst ha
      rw [List.replace_cons_self]
      simp only [List.mem_cons]
      constructor
      · rintro (rfl | h)
        · exact Or.inl rfl
        · refine Or.inr ⟨Or.inr h, ?_⟩
          rintro rfl
          exact hnd.1 h
      · rintro (rfl | ⟨h, hne⟩)
        · exact Or.inl rfl
        · rcases h with rfl | h
          · exact absurd rfl hne
          · exact Or.inr h
    · have hvt : v ∈ t := by
        rcases List.mem_cons.mp hv with h | h
        · exact absurd h ha
        · exact h
      rw [replace_cons_of_ne a t v w ha]
      simp only [List.mem_cons]
      rw [ih hnd.2 hvt hw.2]
      constructor
      · rintro (rfl | h | ⟨h, hne⟩)
        · refine Or.inr ⟨Or.inl rfl, ?_⟩
          rintro rfl
          exact ha rfl
        · exact Or.inl h
        · exact Or.inr ⟨Or.inr h, hne⟩
      · rintro (rfl | ⟨(rfl | h), hne⟩)
        · exact Or.inr (Or.inl rfl)
        · exact Or.inl rfl
        · exact Or.inr (Or.inr ⟨h, hne⟩)

end ReplaceLemmas

/-- A buffer produced by NewLIFOBuffer is well-formed and empty. -/
theorem new_buffer_wf {T : Type} [DecidableEq T] [Inhabited T]
    (c : Int) (b : LIFOBuffer T) (hc : 0 ≤ c)
    (h : LIFOBuffer.NewLIFOBuffer c = some b) : b.WF ∧ b.live = [] := by
  obtain ⟨b2, h2, hwf, hlive, -, -⟩ :=
    @LIFOBuffer.NewLIFOBuffer_spec T _ _ c hc
  rw [h] at h2
  obtain rfl := Option.some.inj h2
  exact ⟨hwf, hlive⟩

/-! ## Public operations and reachable states -/

/-- A mutating operation of the public Robin API.  (The queries
Contains, BufferContains, Len and BufferLen do not change the
state.) -/
inductive Op (T : Type) where
  | add (vs : List T)
  | remove (vs : List T)
  | next
  | reset

/-- Apply one public operation; none stands for a runtime panic. -/
def applyOp [DecidableEq T] [Inhabited T] (r : Robin T) : Op T → Option (Robin T)
  | .add vs => r.Add vs
  | .remove vs => r.Remove vs
  | .next => some (r.Next).2
  | .reset => some r.Reset

/-- The states reachable through the public API from a freshly
constructed robin: NewUnbounded, or NewBounded with either no buffer
or a freshly constructed LIFOBuffer, followed by any sequence of
successful public operations. -/
inductive Reachable [DecidableEq T] [Inhabited T] : Robin T → Prop where
  | unbounded : Reachable Robin.NewUnbounded
  | boundedNoBuffer (len : Int) : Reachable (Robin.NewBounded len none)
  | boundedBuffer (len c : Int) (b : LIFOBuffer T) (hc : 0 ≤ c)
      (hb : LIFOBuffer.NewLIFOBuffer c = some b) :
      Reachable (Robin.NewBounded len (some b))
  | step (r r2 : Robin T) (op : Op T) (hr : Reachable r)
      (hstep : applyOp r op = some r2) : Reachable r2

namespace Robin

variable {T : Type} [DecidableEq T] [Inhabited T]

/-- The structural invariant: ring and index are duplicate-free and
hold exactly the same value set (the bijection between index entries
and ring nodes), and a bounded robin never exceeds its bound. -/
def Inv (r : Robin T) : Prop :=
  r.ring.Nodup ∧ r.nodes.Nodup ∧ (∀ x, x ∈ r.nodes ↔ x ∈ r.ring) ∧
  (0 < r.maxLen → r.nodes.length ≤ r.maxLen)

/-- The buffer-side invariant: an attached buffer is well-formed, its
live values are duplicate-free and disjoint from the index, and it is
non-empty only when the robin is bounded and full. -/
def BufInv (r : Robin T) : Prop :=
  ∀ b, r.buffer = some b → b.WF ∧ b.live.Nodup ∧
    (∀ x ∈ b.live, x ∉ r.nodes) ∧
    (b.n ≠ 0 → 0 < r.maxLen ∧ r.nodes.length = r.maxLen)

/-- The full invariant carried through every reachable state. -/
def RInv (r : Robin T) : Prop := r.Inv ∧ r.BufInv

theorem live_nil_of_n_eq_zero (b : LIFOBuffer T) (hn : b.n = 0) : b.live = [] := by
  have := LIFOBuffer.length_live b
  rw [hn] at this
  exact List.eq_nil_of_length_eq_zero this

theorem RInv_next (r : Robin T) (hr : r.RInv) : (r.Next).2.RInv := by
  obtain ⟨⟨hrd, hnd, hmem, hbound⟩, hbuf⟩ := hr
  refine ⟨⟨?_, ?_, ?_, ?_⟩, ?_⟩
  · rw [Next_snd_ring]
    exact List.nodup_rotate.mpr hrd
  · rw [Next_snd_nodes]
    exact hnd
  · intro x
    rw [Next_snd_nodes, Next_snd_ring, List.mem_rotate]
    exact hmem x
  · rw [Next_snd_maxLen, Next_snd_nodes]
    exact hbound
  · intro b hb
    rw [Next_snd_buffer] at hb
    obtain ⟨hwf, hlnd, hdisj, hfull⟩ := hbuf b hb
    refine ⟨hwf, hlnd, ?_, ?_⟩
    · intro x hx
      rw [Next_snd_nodes]
      exact hdisj x hx
    · rw [Next_snd_nodes, Next_snd_maxLen]
      exact hfull

theorem RInv_reset (r : Robin T) (hr : r.RInv) : r.Reset.RInv := by
  obtain ⟨-, hbuf⟩ := hr
  obtain ⟨rg, nd, m, bf⟩ := r
  cases bf with
  | none =>
    refine ⟨⟨List.nodup_nil, List.nodup_nil, fun x => Iff.rfl, fun _ => Nat.zero_le _⟩, ?_⟩
    intro b hb
    exact Option.noConfusion hb
  | some b =>
    obtain ⟨hwf, -, -, -⟩ := hbuf b rfl
    refine ⟨⟨List.nodup_nil, List.nodup_nil, fun x => Iff.rfl, fun _ => Nat.zero_le _⟩, ?_⟩
    intro b2 hb2
    obtain rfl : b.Reset = b2 := Option.some.inj hb2
    obtain ⟨hwf2, hlive2, -⟩ := LIFOBuffer.Reset_spec b hwf.1
    refine ⟨hwf2, ?_, ?_, ?_⟩
    · rw [hlive2]
      exact List.nodup_nil
    · intro x hx
      rw [hlive2] at hx
      simp at hx
    · intro hn
      exact absurd rfl hn

theorem RInv_new_unbounded : (NewUnbounded : Robin T).RInv := by
  refine ⟨⟨List.nodup_nil, List.nodup_nil, fun x => Iff.rfl, fun _ => Nat.zero_le _⟩, ?_⟩
  intro b hb
  exact Option.noConfusion hb

theorem RInv_new_bounded_none (len : Int) : (NewBounded len none : Robin T).RInv := by
  unfold NewBounded
  by_cases h : len ≤ 0
  · rw [if_pos h]
    exact RInv_new_unbounded
  · rw [if_neg h]
    refine ⟨⟨List.nodup_nil, List.nodup_nil, fun x => Iff.rfl, fun _ => Nat.zero_le _⟩, ?_⟩
    intro b hb
    exact Option.noConfusion hb

theorem RInv_new_bounded_buffer (len c : Int) (b : LIFOBuffer T) (hc : 0 ≤ c)
    (hb : LIFOBuffer.NewLIFOBuffer c = some b) :
    (NewBounded len (some b) : Robin T).RInv := by
  obtain ⟨hwf, hlive⟩ := new_buffer_wf c b hc hb
  unfold NewBounded
  by_cases h : len ≤ 0
  · rw [if_pos h]
    exact RInv_new_unbounded
  · rw [if_neg h]
    refine ⟨⟨List.nodup_nil, List.nodup_nil, fun x => Iff.rfl, fun _ => Nat.zero_le _⟩, ?_⟩
    intro b2 hb2
    obtain rfl : b = b2 := Option.some.inj hb2
    refine ⟨hwf, ?_, ?_, ?_⟩
    · rw [hlive]
      exact List.nodup_nil
    · intro x hx
      rw [hlive] at hx
      simp at hx
    · intro hn
      exfalso
      apply hn
      have := LIFOBuffer.length_live b
      rw [hlive] at this
      have h0 : b.n.toNat = 0 := this.symm
      have hsp := @LIFOBuffer.NewLIFOBuffer_spec T _ _ c hc
      obtain ⟨b3, hb3, -, -, -, hn3⟩ := hsp
      rw [hb] at hb3
      obtain rfl := Option.some.inj hb3
      exact hn3

/-! ### Preservation of the invariant by Add -/

/-- The invariant of the Add loop: the evolving state r with the
pending chain of newly indexed values.  Chain values are already in
the index but not yet in the ring. -/
def AddInv (r : Robin T) (chain : List T) : Prop :=
  r.ring.Nodup ∧ r.nodes.Nodup ∧
  (∀ x, x ∈ r.nodes ↔ x ∈ r.ring ∨ x ∈ chain) ∧
  chain.Nodup ∧ (∀ x ∈ chain, x ∉ r.ring) ∧
  (0 < r.maxLen → r.nodes.length ≤ r.maxLen) ∧
  r.BufInv

/-- Unfolding of one step of the Add loop. -/
theorem addLoop_cons (r : Robin T) (chain : List T) (v : T) (vs : List T) :
    r.addLoop chain (v :: vs) =
      if v ∈ r.nodes then r.addLoop chain vs
      else if 0 < r.maxLen ∧ r.nodes.length = r.maxLen then
        match r.buffer with
        | none => some (r, chain)
        | some b =>
          if b.Contains v then r.addLoop chain vs
          else
            match b.Push v with
            | none => none
            | some b2 => addLoop { r with buffer := some b2 } chain vs
      else addLoop { r with nodes := r.nodes.insert v } (chain ++ [v]) vs := rfl

theorem addLoop_cons_mem (r : Robin T) (chain : List T) (v : T) (vs : List T)
    (hv : v ∈ r.nodes) : r.addLoop chain (v :: vs) = r.addLoop chain vs := by
  rw [addLoop_cons, if_pos hv]

theorem addLoop_cons_full_none (r : Robin T) (chain : List T) (v : T) (vs : List T)
    (hv : v ∉ r.nodes) (hfull : 0 < r.maxLen ∧ r.nodes.length = r.maxLen)
    (hb : r.buffer = none) : r.addLoop chain (v :: vs) = some (r, chain) := by
  rw [addLoop_cons, if_neg hv, if_pos hfull, hb]

theorem addLoop_cons_full_contains (r : Robin T) (chain : List T) (v : T)
    (vs : List T) (b : LIFOBuffer T)
    (hv : v ∉ r.nodes) (hfull : 0 < r.maxLen ∧ r.nodes.length = r.maxLen)
    (hb : r.buffer = some b) (hcv : b.Contains v = true) :
    r.addLoop chain (v :: vs) = r.addLoop chain vs := by
  rw [addLoop_cons, if_neg hv, if_pos hfull, hb]
  show (if b.Contains v = true then r.addLoop chain vs else _) = _
  rw [if_pos hcv]

theorem addLoop_cons_full_push (r : Robin T) (chain : List T) (v : T)
    (vs : List T) (b b2 : LIFOBuffer T)
    (hv : v ∉ r.nodes) (hfull : 0 < r.maxLen ∧ r.nodes.length = r.maxLen)
    (hb : r.buffer = some b) (hcv : ¬ b.Contains v = true)
    (hp : b.Push v = some b2) :
    r.addLoop chain (v :: vs) =
      addLoop { r with buffer := some b2 } chain vs := by
  rw [addLoop_cons, if_neg hv, if_pos hfull, hb]
  show (if b.Contains v = true then r.addLoop chain vs else
        match b.Push v with
        | none => none
        | some b2 => addLoop { r with buffer := some b2 } chain vs) = _
  rw [if_neg hcv, hp]

theorem addLoop_cons_full_panic (r : Robin T) (chain : List T) (v : T)
    (vs : List T) (b : LIFOBuffer T)
    (hv : v ∉ r.nodes) (hfull : 0 < r.maxLen ∧ r.nodes.length = r.maxLen)
    (hb : r.buffer = some b) (hcv : ¬ b.Contains v = true)
    (hp : b.Push v = none) :
    r.addLoop chain (v :: vs) = none := by
  rw [addLoop_cons, if_neg hv, if_pos hfull, hb]
  show (if b.Contains v = true then r.addLoop chain vs else
        match b.Push v with
        | none => none
        | some b2 => addLoop { r with buffer := some b2 } chain vs) = _
  rw [if_neg hcv, hp]

theorem addLoop_cons_insert (r : Robin T) (chain : List T) (v : T) (vs : List T)
    (hv : v ∉ r.nodes) (hfull : ¬ (0 < r.maxLen ∧ r.nodes.length = r.maxLen)) :
    r.addLoop chain (v :: vs) =
      addLoop { r with nodes := r.nodes.insert v } (chain ++ [v]) vs := by
  rw [addLoop_cons, if_neg hv, if_neg hfull]

/-- A successful Push implies a positive capacity (on a well-formed
buffer: with capacity 0 the eviction read is out of range). -/
theorem Push_some_capacity_pos (b : LIFOBuffer T) (v : T) (b2 : LIFOBuffer T)
    (hwf : b.WF) (h : b.Push v = some b2) : 0 < b.capacity := by
  by_contra h0
  have hc : b.capacity = 0 := by omega
  obtain ⟨hlen, hn0, hnc, -, -, -⟩ := hwf
  have hn : b.n = 0 := by
    rw [hc] at hnc
    omega
  have hbuf : b.buf = [] := by
    apply List.eq_nil_of_length_eq_zero
    rw [hlen, hc]
  unfold LIFOBuffer.Push at h
  rw [hn, hc, hbuf] at h
  simp at h

/-- The Add loop preserves the loop invariant, never changes the ring,
bound or (fullness-relevant) index length beyond the bound, and
succeeds whenever every attached buffer has positive capacity. -/
theorem addLoop_main (vs : List T) :
    ∀ (r : Robin T) (chain : List T), AddInv r chain →
      (∀ r2 chain2, r.addLoop chain vs = some (r2, chain2) →
        AddInv r2 chain2 ∧ r2.ring = r.ring ∧ r2.maxLen = r.maxLen) ∧
      ((∀ b, r.buffer = some b → 0 < b.capacity) →
        (r.addLoop chain vs).isSome) := by
  induction vs with
  | nil =>
    intro r chain hj
    constructor
    · intro r2 chain2 h
      have h2 := Option.some.inj h
      injection h2 with e1 e2
      subst e1
      subst e2
      exact ⟨hj, rfl, rfl⟩
    · intro _
      rfl
  | cons v vs ih =>
    intro r chain hj
    obtain ⟨hrnd, hnnd, hmem, hcnd, hcr, hbound, hbuf⟩ := hj
    by_cases hv : v ∈ r.nodes
    · rw [addLoop_cons_mem r chain v vs hv]
      exact ih r chain ⟨hrnd, hnnd, hmem, hcnd, hcr, hbound, hbuf⟩
    · by_cases hfull : 0 < r.maxLen ∧ r.nodes.length = r.maxLen
      · cases hb : r.buffer with
        | none =>
          rw [addLoop_cons_full_none r chain v vs hv hfull hb]
          constructor
          · intro r2 chain2 h
            have h2 := Option.some.inj h
            injection h2 with e1 e2
            subst e1
            subst e2
            exact ⟨⟨hrnd, hnnd, hmem, hcnd, hcr, hbound, hbuf⟩, rfl, rfl⟩
          · intro _
            rfl
        | some b =>
          obtain ⟨hwf, hlnd, hdisj, hfullb⟩ := hbuf b hb
          by_cases hcv : b.Contains v = true
          · rw [addLoop_cons_full_contains r chain v vs b hv hfull hb hcv, ← hb]
            exact ih r chain ⟨hrnd, hnnd, hmem, hcnd, hcr, hbound, hbuf⟩
          · have hvlive : v ∉ b.live := by
              intro hx
              exact hcv ((LIFOBuffer.Contains_iff_mem_live b hwf v).mpr hx)
            have hnext : ∀ b2, b.Push v = some b2 →
                AddInv { r with buffer := some b2 } chain ∧
                (∀ bb, ({ r with buffer := some b2 } : Robin T).buffer = some bb →
                  0 < b.capacity → 0 < bb.capacity) := by
              intro b2 hp
              have hcap := Push_some_capacity_pos b v b2 hwf hp
              obtain ⟨b2x, hpx, hwf2, hlive2, -, hcap2⟩ :=
                LIFOBuffer.Push_spec b v hwf hcap
              rw [hp] at hpx
              obtain rfl := Option.some.inj hpx
              have hsub : ∀ x ∈ b2.live, x = v ∨ x ∈ b.live := by
                intro x hx
                rw [hlive2] at hx
                have := (List.take_sublist _ _).mem hx
                rcases List.mem_cons.mp this with h3 | h3
                · exact Or.inl h3
                · exact Or.inr h3
              refine ⟨⟨hrnd, hnnd, hmem, hcnd, hcr, hbound, ?_⟩, ?_⟩
              · intro bb hbb
                obtain rfl : b2 = bb := Option.some.inj hbb
                refine ⟨hwf2, ?_, ?_, ?_⟩
                · rw [hlive2]
                  exact ((v :: b.live).take_sublist _).nodup
                    (List.nodup_cons.mpr ⟨hvlive, hlnd⟩)
                · intro x hx
                  rcases hsub x hx with rfl | h3
                  · exact hv
                  · exact hdisj x h3
                · intro _
                  exact hfull
              · intro bb hbb hc
                obtain rfl : b2 = bb := Option.some.inj hbb
                rw [hcap2]
                exact hc
            constructor
            · intro r2 chain2 h
              cases hp : b.Push v with
              | none =>
                rw [addLoop_cons_full_panic r chain v vs b hv hfull hb hcv hp] at h
                exact Option.noConfusion h
              | some b2 =>
                rw [addLoop_cons_full_push r chain v vs b b2 hv hfull hb hcv hp] at h
                obtain ⟨hj2, -⟩ := hnext b2 hp
                obtain ⟨hj3, e1, e2⟩ := (ih _ chain hj2).1 r2 chain2 h
                exact ⟨hj3, e1, e2⟩
            · intro hcap
              have hcapb : 0 < b.capacity := hcap b rfl
              obtain ⟨b2, hp, -, -, -, -⟩ := LIFOBuffer.Push_spec b v hwf hcapb
              rw [addLoop_cons_full_push r chain v vs b b2 hv hfull hb hcv hp]
              obtain ⟨hj2, hcap2⟩ := hnext b2 hp
              apply (ih _ chain hj2).2
              intro bb hbb
              exact hcap2 bb hbb hcapb
      · rw [addLoop_cons_insert r chain v vs hv hfull]
        have hvr : v ∉ r.ring := by
          intro hx
          exact hv ((hmem v).mpr (Or.inl hx))
        have hvc : v ∉ chain := by
          intro hx
          exact hv ((hmem v).mpr (Or.inr hx))
        have hj2 : AddInv { r with nodes := r.nodes.insert v } (chain ++ [v]) := by
          refine ⟨hrnd, ?_, ?_, ?_, ?_, ?_, ?_⟩
          · exact hnnd.insert
          · intro x
            show x ∈ r.nodes.insert v ↔ _
            rw [List.mem_insert_iff, hmem x, List.mem_append, List.mem_singleton]
            tauto
          · rw [List.nodup_append]
            exact ⟨hcnd, List.nodup_singleton v, by
              intro x hx hx2
              rw [List.mem_singleton] at hx2
              subst hx2
              exact hvc hx⟩
          · intro x hx
            rcases List.mem_append.mp hx with h3 | h3
            · exact hcr x h3
            · rw [List.mem_singleton] at h3
              subst h3
              exact hvr
          · intro hm
            show (r.nodes.insert v).length ≤ r.maxLen
            rw [List.length_insert_of_not_mem hv]
            have h1 := hbound hm
            have h2 : ¬ r.nodes.length = r.maxLen := fun he => hfull ⟨hm, he⟩
            omega
          · intro b hb
            obtain ⟨hwf, hlnd, hdisj, hfullb⟩ := hbuf b hb
            have hn0 : b.n = 0 := by
              by_contra hn
              exact hfull (hfullb hn)
            have hlive0 : b.live = [] := live_nil_of_n_eq_zero b hn0
            refine ⟨hwf, hlnd, ?_, ?_⟩
            · intro x hx
              rw [hlive0] at hx
              simp at hx
            · intro hn
              exact absurd hn0 hn
        constructor
        · intro r2 chain2 h
          exact (ih _ _ hj2).1 r2 chain2 h
        · intro hcap
          apply (ih _ _ hj2).2
          intro bb hbb
          exact hcap bb hbb

/-- Remove of a present value with a non-empty well-formed buffer:
the popped head of the live contents overwrites the removed node in
place. -/
theorem removeOne_replace (r : Robin T) (v : T) (b : LIFOBuffer T)
    (hv : v ∈ r.nodes) (hb : r.buffer = some b) (hwf : b.WF) (hn : b.n ≠ 0) :
    ∃ b2, b.Pop = some ((b.live.headI, true), b2) ∧ b2.WF ∧
      b2.live = b.live.tail ∧ b2.n = b.n - 1 ∧
      r.removeOne v = some { r with
        ring := r.ring.replace v b.live.headI,
        nodes := (r.nodes.erase v).insert b.live.headI,
        buffer := some b2 } := by
  obtain ⟨b2, hpop, hwf2, hlive2, -, -, hn2⟩ := LIFOBuffer.Pop_spec_pos b hwf hn
  refine ⟨b2, hpop, hwf2, hlive2, hn2, ?_⟩
  obtain ⟨rg, nd, m, bf⟩ := r
  have hb2 : bf = some b := hb
  subst hb2
  unfold removeOne
  rw [if_pos hv]
  simp only [replaceValue, hpop]
  rfl

/-- removeOne preserves the invariant and always succeeds. -/
theorem removeOne_main (r : Robin T) (v : T) (hr : r.RInv) :
    (∀ r2, r.removeOne v = some r2 → r2.RInv ∧ r2.maxLen = r.maxLen) ∧
    (r.removeOne v).isSome := by
  obtain ⟨⟨hrnd, hnnd, hmem, hbound⟩, hbuf⟩ := hr
  by_cases hv : v ∈ r.nodes
  · have hvr : v ∈ r.ring := (hmem v).mp hv
    have herase_rinv : ({ r with
        ring := r.ring.erase v,
        nodes := r.nodes.erase v } : Robin T).Inv := by
      refine ⟨hrnd.erase v, hnnd.erase v, ?_, ?_⟩
      · intro x
        show x ∈ r.nodes.erase v ↔ x ∈ r.ring.erase v
        rw [hnnd.mem_erase_iff, hrnd.mem_erase_iff, hmem x]
      · intro hm
        show (r.nodes.erase v).length ≤ r.maxLen
        exact (List.length_erase_le v r.nodes).trans (hbound hm)
    cases hb : r.buffer with
    | none =>
      have hu := removeOne_unlink r v hv (Or.inl hb)
      rw [hu]
      refine ⟨?_, rfl⟩
      intro r2 h
      obtain rfl := Option.some.inj h
      refine ⟨⟨herase_rinv, ?_⟩, rfl⟩
      intro b2 hb2
      have hb2e : r.buffer = some b2 := hb2
      rw [hb] at hb2e
      exact Option.noConfusion hb2e
    | some b =>
      obtain ⟨hwf, hlnd, hdisj, hfullb⟩ := hbuf b hb
      by_cases hn : b.n = 0
      · have hu := removeOne_unlink r v hv (Or.inr ⟨b, hb, hn⟩)
        rw [hu]
        refine ⟨?_, rfl⟩
        intro r2 h
        obtain rfl := Option.some.inj h
        refine ⟨⟨herase_rinv, ?_⟩, rfl⟩
        intro b2 hb2
        have hb2e : r.buffer = some b2 := hb2
        rw [hb] at hb2e
        obtain rfl := Option.some.inj hb2e
        have hlive0 : b.live = [] := live_nil_of_n_eq_zero b hn
        refine ⟨hwf, hlnd, ?_, ?_⟩
        · intro x hx
          rw [hlive0] at hx
          simp at hx
        · intro hx
          exact absurd hn hx
      · obtain ⟨b2, hpop, hwf2, hlive2, hn2, hstep⟩ :=
          removeOne_replace r v b hv hb hwf hn
        rw [hstep]
        obtain ⟨hd, tl, hconsv⟩ : ∃ hd tl, b.live = hd :: tl := by
          cases hc : b.live with
          | nil =>
            exfalso
            have := LIFOBuffer.length_live b
            rw [hc] at this
            have h0 : b.n.toNat = 0 := this.symm
            obtain ⟨-, hn0, -, -, -, -⟩ := hwf
            omega
          | cons hd tl => exact ⟨hd, tl, rfl⟩
        have hw : b.live.headI = hd := by
          rw [hconsv]
          rfl
        have hwlive : b.live.headI ∈ b.live := by
          rw [hw, hconsv]
          exact List.mem_cons_self _ _
        have hwn : b.live.headI ∉ r.nodes := hdisj _ hwlive
        have hwr : b.live.headI ∉ r.ring := fun hx => hwn ((hmem _).mpr hx)
        have hwe : b.live.headI ∉ r.nodes.erase v :=
          fun hx => hwn (List.mem_of_mem_erase hx)
        have hlen2 : ((r.nodes.erase v).insert b.live.headI).length
            = r.nodes.length := by
          rw [List.length_insert_of_not_mem hwe, List.length_erase_of_mem hv]
          have := List.length_pos_of_mem hv
          omega
        refine ⟨?_, rfl⟩
        intro r2 h
        obtain rfl := Option.some.inj h
        refine ⟨⟨⟨?_, ?_, ?_, ?_⟩, ?_⟩, rfl⟩
        · show (r.ring.replace v b.live.headI).Nodup
          exact nodup_replace r.ring v _ hrnd hwr
        · show ((r.nodes.erase v).insert b.live.headI).Nodup
          exact (hnnd.erase v).insert
        · intro x
          show x ∈ (r.nodes.erase v).insert b.live.headI ↔
            x ∈ r.ring.replace v b.live.headI
          rw [List.mem_insert_iff, hnnd.mem_erase_iff,
              mem_replace_iff r.ring v _ x hrnd hvr hwr, hmem x]
          tauto
        · intro hm
          show ((r.nodes.erase v).insert b.live.headI).length ≤ r.maxLen
          rw [hlen2]
          exact hbound hm
        · intro b3 hb3
          have hb3e : some b2 = some b3 := hb3
          obtain rfl := Option.some.inj hb3e
          refine ⟨hwf2, ?_, ?_, ?_⟩
          · rw [hlive2]
            exact (List.tail_sublist b.live).nodup hlnd
          · intro x hx
            rw [hlive2, hconsv] at hx
            have hxl : x ∈ b.live := by
              rw [hconsv]
              exact List.mem_cons_of_mem _ hx
            have hxn : x ∉ r.nodes := hdisj x hxl
            show x ∉ (r.nodes.erase v).insert b.live.headI
            rw [List.mem_insert_iff]
            rintro (rfl | hx2)
            · rw [hw] at hx
              rw [hconsv, List.nodup_cons] at hlnd
              exact hlnd.1 hx
            · exact hxn (List.mem_of_mem_erase hx2)
          · intro hn3
            have hfull := hfullb hn
            refine ⟨hfull.1, ?_⟩
            show ((r.nodes.erase v).insert b.live.headI).length = r.maxLen
            rw [hlen2]
            exact hfull.2
  · have hid : r.removeOne v = some r := by
      unfold removeOne
      rw [if_neg hv]
    rw [hid]
    refine ⟨?_, rfl⟩
    intro r2 h
    obtain rfl := Option.some.inj h
    exact ⟨⟨⟨hrnd, hnnd, hmem, hbound⟩, hbuf⟩, rfl⟩

/-- Remove preserves the invariant and always succeeds. -/
theorem Remove_main (vs : List T) : ∀ (r : Robin T), r.RInv →
    (∀ r2, r.Remove vs = some r2 → r2.RInv ∧ r2.maxLen = r.maxLen) ∧
    (r.Remove vs).isSome := by
  induction vs with
  | nil =>
    intro r hr
    refine ⟨?_, rfl⟩
    intro r2 h
    obtain rfl := Option.some.inj h
    exact ⟨hr, rfl⟩
  | cons v vs ih =>
    intro r hr
    have h1 := removeOne_main r v hr
    cases ho : r.removeOne v with
    | none =>
      exfalso
      have h2 := h1.2
      rw [ho] at h2
      simp at h2
    | some r3 =>
      obtain ⟨hri3, hmax3⟩ := h1.1 r3 ho
      have ih3 := ih r3 hri3
      have hred : r.Remove (v :: vs) = Robin.Remove r3 vs := by
        show (match r.removeOne v with
              | none => none
              | some r2 => Remove r2 vs) = _
        rw [ho]
      rw [hred]
      refine ⟨?_, ih3.2⟩
      intro r2 h
      obtain ⟨hri2, hm⟩ := ih3.1 r2 h
      exact ⟨hri2, hm.trans hmax3⟩

/-- Add preserves the invariant and succeeds whenever every attached
buffer has positive capacity. -/
theorem Add_main (r : Robin T) (vs : List T) (hr : r.RInv) :
    (∀ r2, r.Add vs = some r2 → r2.RInv ∧ r2.maxLen = r.maxLen) ∧
    ((∀ b, r.buffer = some b → 0 < b.capacity) → (r.Add vs).isSome) := by
  obtain ⟨⟨hrnd, hnnd, hmem, hbound⟩, hbuf⟩ := hr
  have hj : r.AddInv [] := by
    refine ⟨hrnd, hnnd, ?_, List.nodup_nil,
      fun x hx => absurd hx (List.not_mem_nil x), hbound, hbuf⟩
    intro x
    rw [hmem x]
    simp
  unfold Add
  by_cases hguard : 0 < r.maxLen ∧ r.nodes.length = r.maxLen ∧ r.buffer = none
  · rw [if_pos hguard]
    refine ⟨?_, fun _ => rfl⟩
    intro r2 h
    obtain rfl := Option.some.inj h
    exact ⟨⟨⟨hrnd, hnnd, hmem, hbound⟩, hbuf⟩, rfl⟩
  · rw [if_neg hguard]
    constructor
    · intro r2 h
      cases hl : r.addLoop [] vs with
      | none =>
        rw [hl] at h
        exact Option.noConfusion h
      | some p =>
        obtain ⟨r3, chain⟩ := p
        rw [hl] at h
        obtain rfl := Option.some.inj h
        obtain ⟨⟨h1, h2, h3, h4, h5, h6, h7⟩, hring, hmax⟩ :=
          (addLoop_main vs r [] hj).1 r3 chain hl
        refine ⟨⟨⟨?_, h2, ?_, h6⟩, ?_⟩, hmax⟩
        · show (chain ++ r3.ring).Nodup
          rw [List.nodup_append]
          exact ⟨h4, h1, fun x hx hx2 => h5 x hx hx2⟩
        · intro x
          show x ∈ r3.nodes ↔ x ∈ chain ++ r3.ring
          rw [h3 x, List.mem_append]
          tauto
        · intro b hb
          exact h7 b hb
    · intro hcap
      have hs := (addLoop_main vs r [] hj).2 hcap
      cases hl : r.addLoop [] vs with
      | none =>
        rw [hl] at hs
        simp at hs
      | some p =>
        obtain ⟨r3, chain⟩ := p
        rfl

/-- Remove of a single value reduces to one loop iteration. -/
theorem Remove_single (r : Robin T) (v : T) (r2 : Robin T)
    (h : r.removeOne v = some r2) : r.Remove [v] = some r2 := by
  show (match r.removeOne v with
        | none => none
        | some r3 => Remove r3 []) = _
  rw [h]
  rfl

end Robin

/-- Every reachable state satisfies the full invariant. -/
theorem reachable_rinv {T : Type} [DecidableEq T] [Inhabited T]
    (r : Robin T) (hr : Reachable r) : r.RInv := by
  induction hr with
  | unbounded => exact Robin.RInv_new_unbounded
  | boundedNoBuffer len => exact Robin.RInv_new_bounded_none len
  | boundedBuffer len c b hc hb => exact Robin.RInv_new_bounded_buffer len c b hc hb
  | step r r2 op hr hstep ih =>
    cases op with
    | add vs => exact ((Robin.Add_main r vs ih).1 r2 hstep).1
    | remove vs => exact ((Robin.Remove_main vs r ih).1 r2 hstep).1
    | next =>
      obtain rfl := Option.some.inj hstep
      exact Robin.RInv_next r ih
    | reset =>
      obtain rfl := Option.some.inj hstep
      exact Robin.RInv_reset r ih

/-- Removing one value while the buffer is non-empty keeps the length
(the popped value takes the removed slot). -/
theorem removeOne_len_preserved {T : Type} [DecidableEq T] [Inhabited T]
    (r : Robin T) (v : T) (b : LIFOBuffer T)
    (hri : r.RInv) (hb : r.buffer = some b) (hn : b.n ≠ 0) :
    ∃ r2, r.removeOne v = some r2 ∧ r2.Len = r.Len := by
  obtain ⟨⟨hrnd, hnnd, hmem, hbound⟩, hbuf⟩ := hri
  obtain ⟨hwf, hlnd, hdisj, hfullb⟩ := hbuf b hb
  by_cases hv : v ∈ r.nodes
  · obtain ⟨b2, hpop, hwf2, hlive2, hn2, hstep⟩ :=
      Robin.removeOne_replace r v b hv hb hwf hn
    refine ⟨_, hstep, ?_⟩
    have hlivene : b.live ≠ [] := by
      intro hc
      have := LIFOBuffer.length_live b
      rw [hc] at this
      obtain ⟨-, hn0, -, -, -, -⟩ := hwf
      simp at this
      omega
    have hwlive : b.live.headI ∈ b.live := by
      cases hc : b.live with
      | nil => exact absurd hc hlivene
      | cons hd tl =>
        show (hd :: tl).headI ∈ hd :: tl
        exact List.mem_cons_self _ _
    have hwn : b.live.headI ∉ r.nodes := hdisj _ hwlive
    have hwe : b.live.headI ∉ r.nodes.erase v :=
      fun hx => hwn (List.mem_of_mem_erase hx)
    show ((r.nodes.erase v).insert b.live.headI).length = r.nodes.length
    rw [List.length_insert_of_not_mem hwe, List.length_erase_of_mem hv]
    have := List.length_pos_of_mem hv
    omega
  · refine ⟨r, ?_, rfl⟩
    unfold Robin.removeOne
    rw [if_neg hv]

/-! ## The claims -/

/-- Claim C1: for an unbounded Robin with no prior state, Add(a, b, c)
with three distinct values followed by any number n of Next() calls
yields the cyclic sequence a, b, c, a, b, c, ..., each call returning
presence flag true. -/
theorem C1_rotation_order {T : Type} [DecidableEq T] [Inhabited T]
    (a b c : T) (n : Nat) (hab : a ≠ b) (hac : a ≠ c) (hbc : b ≠ c) :
    ∃ r, (Robin.NewUnbounded : Robin T).Add [a, b, c] = some r ∧
      r.nextList n = (List.range n).map
        (fun k => (if k % 3 = 0 then a else if k % 3 = 1 then b else c, true)) := by
  refine ⟨⟨[a, b, c], [c, b, a], 0, none⟩, ?_, ?_⟩
  · simp [Robin.Add, Robin.addLoop, Robin.attach, Robin.NewUnbounded,
      Ne.symm hab, Ne.symm hac, Ne.symm hbc]
  · rw [Robin.nextList_spec n _ (by simp)]
    apply List.map_congr_left
    intro k _
    show ((([a, b, c] : List T).rotate k).headI, true) = _
    rw [Robin.rotate3_headI]

/-- Witness for C1 at a = 0, b = 1, c = 2, n = 7. -/
theorem C1_rotation_order_witness :
    (0 : Int) ≠ 1 ∧ (0 : Int) ≠ 2 ∧ (1 : Int) ≠ 2 ∧
    (∃ r, (Robin.NewUnbounded : Robin Int).Add [0, 1, 2] = some r ∧
      r.nextList 7 = (List.range 7).map
        (fun k => (if k % 3 = 0 then (0 : Int) else if k % 3 = 1 then 1 else 2, true))) :=
  ⟨by decide, by decide, by decide,
   C1_rotation_order 0 1 2 7 (by decide) (by decide) (by decide)⟩

/-- Claim C3: Add splices the chain of newly added values immediately
before the cursor and leaves the cursor on the first newly-added
node, so the next Next() call returns the first value added in that
call; in particular, from a ring about to yield a then b, Add(c)
makes the next three Next() calls yield c, a, b. -/
theorem C3_insert_before_cursor {T : Type} [DecidableEq T] [Inhabited T]
    (r : Robin T) (a b c : T) (l : List T)
    (hring : r.ring = a :: b :: l)
    (hc : c ∉ r.nodes)
    (hfull : ¬ (0 < r.maxLen ∧ r.nodes.length = r.maxLen)) :
    ∃ r2, r.Add [c] = some r2 ∧ r2.ring = c :: r.ring ∧
      r2.Next.1 = (c, true) ∧
      r2.Next.2.Next.1 = (a, true) ∧
      r2.Next.2.Next.2.Next.1 = (b, true) := by
  refine ⟨{ r with ring := c :: r.ring, nodes := r.nodes.insert c },
          Robin.Add_fresh_single r c hc hfull, rfl, rfl, ?_, ?_⟩
  · show ({ r with ring := c :: r.ring, nodes := r.nodes.insert c } :
        Robin T).Next.2.Next.1 = (a, true)
    rw [hring]
    rfl
  · show ({ r with ring := c :: r.ring, nodes := r.nodes.insert c } :
        Robin T).Next.2.Next.2.Next.1 = (b, true)
    rw [hring]
    rfl

/-- Witness for C3: ring [5, 6] about to yield 5 then 6, adding 7. -/
theorem C3_insert_before_cursor_witness :
    (⟨[5, 6], [6, 5], 0, none⟩ : Robin Int).ring = 5 :: 6 :: [] ∧
    (7 : Int) ∉ (⟨[5, 6], [6, 5], 0, none⟩ : Robin Int).nodes ∧
    ¬ (0 < (⟨[5, 6], [6, 5], 0, none⟩ : Robin Int).maxLen ∧
        (⟨[5, 6], [6, 5], 0, none⟩ : Robin Int).nodes.length =
          (⟨[5, 6], [6, 5], 0, none⟩ : Robin Int).maxLen) ∧
    (∃ r2, (⟨[5, 6], [6, 5], 0, none⟩ : Robin Int).Add [7] = some r2 ∧
      r2.ring = 7 :: (⟨[5, 6], [6, 5], 0, none⟩ : Robin Int).ring ∧
      r2.Next.1 = (7, true) ∧
      r2.Next.2.Next.1 = (5, true) ∧
      r2.Next.2.Next.2.Next.1 = (6, true)) :=
  ⟨by decide, by decide, by decide,
   C3_insert_before_cursor _ 5 6 7 [] (by decide) (by decide) (by decide)⟩

/-- Claim C8: when Remove unlinks a present value without buffer
replacement (no buffer, or an empty buffer): the value leaves the
index and the ring; if the removed node was the only node in the
ring, the ring becomes empty, Len() is 0 and a subsequent Next()
reports no value; otherwise the node is spliced out (erased from the
rotation order, leaving the order of the remaining values unchanged)
and, if the removed node was the cursor (the head of the rotation
order), the cursor advances to the removed node's successor. -/
theorem C8_remove_unlink {T : Type} [DecidableEq T] [Inhabited T]
    (r : Robin T) (v : T)
    (hv : v ∈ r.nodes)
    (hb : r.buffer = none ∨ ∃ bb, r.buffer = some bb ∧ bb.n = 0)
    (hagree : ∀ x, x ∈ r.nodes ↔ x ∈ r.ring)
    (hnd : r.nodes.Nodup) :
    ∃ r2, r.Remove [v] = some r2 ∧
      r2.ring = r.ring.erase v ∧ r2.nodes = r.nodes.erase v ∧
      (r.ring = [v] → r2.Len = 0 ∧ r2.Next.1.2 = false ∧ r2.ring = []) ∧
      (∀ x l, r.ring = v :: x :: l → r2.ring = x :: l) := by
  have hstep := Robin.removeOne_unlink r v hv hb
  refine ⟨{ r with ring := r.ring.erase v, nodes := r.nodes.erase v },
          ?_, rfl, rfl, ?_, ?_⟩
  · show (match r.removeOne v with
          | none => none
          | some r2 => Robin.Remove r2 []) = _
    rw [hstep]
    rfl
  · intro hone
    have hnodes : r.nodes = [v] := by
      apply Robin.nodup_all_eq_singleton r.nodes v hnd hv
      intro x hx
      have := (hagree x).mp hx
      rw [hone] at this
      simpa using this
    refine ⟨?_, ?_, ?_⟩
    · show (r.nodes.erase v).length = 0
      rw [hnodes, List.erase_cons_head, List.length_nil]
    · have hring2 : r.ring.erase v = [] := by
        rw [hone, List.erase_cons_head]
      rw [Robin.Next_fst_of_nil _ hring2]
    · show r.ring.erase v = []
      rw [hone, List.erase_cons_head]
  · intro x l hcons
    show r.ring.erase v = x :: l
    rw [hcons, List.erase_cons_head]

/-- Witness for C8: removing the sole value 4 from a singleton robin
with no buffer. -/
theorem C8_remove_unlink_witness :
    (4 : Int) ∈ (⟨[4], [4], 0, none⟩ : Robin Int).nodes ∧
    (⟨[4], [4], 0, none⟩ : Robin Int).buffer = none ∧
    (∃ r2, (⟨[4], [4], 0, none⟩ : Robin Int).Remove [4] = some r2 ∧
      r2.ring = (⟨[4], [4], 0, none⟩ : Robin Int).ring.erase 4 ∧
      r2.nodes = (⟨[4], [4], 0, none⟩ : Robin Int).nodes.erase 4 ∧
      ((⟨[4], [4], 0, none⟩ : Robin Int).ring = [4] →
        r2.Len = 0 ∧ r2.Next.1.2 = false ∧ r2.ring = []) ∧
      (∀ x l, (⟨[4], [4], 0, none⟩ : Robin Int).ring = 4 :: x :: l →
        r2.ring = x :: l)) :=
  ⟨by decide, by decide,
   C8_remove_unlink (⟨[4], [4], 0, none⟩ : Robin Int) 4 (by decide)
     (Or.inl (by decide)) (fun x => Iff.rfl) (by decide)⟩

/-- Claim C5: during Add on a bounded Robin that is at maxSize: if no
buffer is configured, processing stops entirely, so nothing is added,
the state is unchanged (hence the length stays at the bound) and a
subsequent Add is likewise a no-op; if a buffer is configured, each
value not already in the robin is pushed to the buffer unless the
buffer already contains it, and processing continues with the next
value (the overflowAdd fold), while ring and index stay unchanged. -/
theorem C5_add_at_capacity {T : Type} [DecidableEq T] [Inhabited T]
    (r : Robin T) (vs : List T)
    (hm : 0 < r.maxLen) (hlen : r.nodes.length = r.maxLen) :
    (r.buffer = none → r.Add vs = some r ∧
      ∀ vs2, (r.Add vs).bind (fun r2 => r2.Add vs2) = some r) ∧
    (∀ b, r.buffer = some b →
      r.Add vs = (Robin.overflowAdd r.nodes b vs).map
        (fun b2 => { r with buffer := some b2 })) := by
  obtain ⟨rg, nd, m, bf⟩ := r
  constructor
  · intro hb
    have hb2 : bf = none := hb
    subst hb2
    have hone : ∀ ws, (⟨rg, nd, m, none⟩ : Robin T).Add ws = some ⟨rg, nd, m, none⟩ := by
      intro ws
      unfold Robin.Add
      rw [if_pos ⟨hm, hlen, rfl⟩]
    refine ⟨hone vs, ?_⟩
    intro vs2
    rw [hone vs]
    exact hone vs2
  · intro b hb
    have hb2 : bf = some b := hb
    subst hb2
    unfold Robin.Add
    rw [if_neg (fun hx => Option.noConfusion hx.2.2),
        Robin.addLoop_full rg nd m b [] vs hm hlen]
    cases Robin.overflowAdd nd b vs with
    | none => rfl
    | some b2 => rfl

/-- Witness for C5: a bounded robin of capacity 2 holding two values,
no buffer, adding [3, 4]. -/
theorem C5_add_at_capacity_witness :
    0 < (⟨[1, 2], [2, 1], 2, none⟩ : Robin Int).maxLen ∧
    (⟨[1, 2], [2, 1], 2, none⟩ : Robin Int).nodes.length =
      (⟨[1, 2], [2, 1], 2, none⟩ : Robin Int).maxLen ∧
    (((⟨[1, 2], [2, 1], 2, none⟩ : Robin Int).buffer = none →
      (⟨[1, 2], [2, 1], 2, none⟩ : Robin Int).Add [3, 4] =
          some ⟨[1, 2], [2, 1], 2, none⟩ ∧
      ∀ vs2, ((⟨[1, 2], [2, 1], 2, none⟩ : Robin Int).Add [3, 4]).bind
          (fun r2 => r2.Add vs2) = some ⟨[1, 2], [2, 1], 2, none⟩) ∧
    (∀ b, (⟨[1, 2], [2, 1], 2, none⟩ : Robin Int).buffer = some b →
      (⟨[1, 2], [2, 1], 2, none⟩ : Robin Int).Add [3, 4] =
        (Robin.overflowAdd (⟨[1, 2], [2, 1], 2, none⟩ : Robin Int).nodes b [3, 4]).map
          (fun b2 => { (⟨[1, 2], [2, 1], 2, none⟩ : Robin Int) with buffer := some b2 }))) :=
  ⟨by decide, by decide,
   C5_add_at_capacity (⟨[1, 2], [2, 1], 2, none⟩ : Robin Int) [3, 4]
     (by decide) (by decide)⟩

/-- Claim C6: for every sequence of LIFOBuffer operations on a
well-formed buffer of positive capacity, the live contents behave as
a stack truncated to the capacity: Push prepends the value and drops
the oldest still-buffered value when at capacity, and Pop returns the
head of the live contents (the most recent surviving push), so pop
order is exactly the reverse of push order among the still-buffered
values; in particular, with capacity 2, Push(1); Push(2); Push(3)
leaves Contains(1) false and Pop() returning 3. -/
theorem C6_lifo_order :
    (∀ (T : Type) (inst1 : DecidableEq T) (inst2 : Inhabited T)
      (b : LIFOBuffer T) (v : T), b.WF → 0 < b.capacity →
      ∃ b2, b.Push v = some b2 ∧ b2.WF ∧
        b2.live = (v :: b.live).take b.capacity) ∧
    (∀ (T : Type) (inst1 : DecidableEq T) (inst2 : Inhabited T)
      (b : LIFOBuffer T), b.WF → b.n ≠ 0 →
      ∃ b2, b.Pop = some ((b.live.headI, true), b2) ∧ b2.WF ∧
        b2.live = b.live.tail) ∧
    ((((LIFOBuffer.NewLIFOBuffer 2 : Option (LIFOBuffer Int)).bind
        (fun b => b.Push 1)).bind (fun b => b.Push 2)).bind
        (fun b => b.Push 3)).map
        (fun b => (b.Contains 1, (b.Pop).map (fun p => p.1))) =
      some (false, some (3, true)) := by
  refine ⟨?_, ?_, by decide⟩
  · intro T _ _ b v hwf hc
    obtain ⟨b2, hp, hwf2, hlive, -, -⟩ := LIFOBuffer.Push_spec b v hwf hc
    exact ⟨b2, hp, hwf2, hlive⟩
  · intro T _ _ b hwf hn
    obtain ⟨b2, hp, hwf2, hlive, -, -, -⟩ := LIFOBuffer.Pop_spec_pos b hwf hn
    exact ⟨b2, hp, hwf2, hlive⟩

/-- Witness for C6: pushing 5 onto a fresh well-formed buffer of
capacity 2. -/
theorem C6_lifo_order_witness :
    (⟨[0, 0], 0, 0, [], 2⟩ : LIFOBuffer Int).WF ∧
    0 < (⟨[0, 0], 0, 0, [], 2⟩ : LIFOBuffer Int).capacity ∧
    (∃ b2, (⟨[0, 0], 0, 0, [], 2⟩ : LIFOBuffer Int).Push 5 = some b2 ∧ b2.WF ∧
      b2.live = ((5 : Int) :: (⟨[0, 0], 0, 0, [], 2⟩ : LIFOBuffer Int).live).take
        (⟨[0, 0], 0, 0, [], 2⟩ : LIFOBuffer Int).capacity) :=
  have hwf : (⟨[0, 0], 0, 0, [], 2⟩ : LIFOBuffer Int).WF :=
    (new_buffer_wf 2 (⟨[0, 0], 0, 0, [], 2⟩ : LIFOBuffer Int)
      (by decide) (by decide)).1
  ⟨hwf, by decide,
   C6_lifo_order.1 Int inferInstance inferInstance
     (⟨[0, 0], 0, 0, [], 2⟩ : LIFOBuffer Int) 5 hwf (by decide)⟩

/-- Claim C2: every public operation (Add, Remove, Next, Reset and
the non-mutating queries) preserves the structural invariant, so it
holds in every state reachable through the public API: the index and
the ring contain exactly the same value set, in bijection with nodes
(both are duplicate-free and of equal size, so each index entry
corresponds to exactly one ring node); in this embedding the
non-empty ring is by construction the single cycle that Next
traverses from the cursor, visiting every value exactly once per
rotation (uniqueness is the Nodup conjunct); and a bounded robin
never holds more than maxSize values. -/
theorem C2_structural_invariant {T : Type} [DecidableEq T] [Inhabited T]
    (r : Robin T) (hr : Reachable r) :
    r.ring.Nodup ∧ r.nodes.Nodup ∧ (∀ x, x ∈ r.nodes ↔ x ∈ r.ring) ∧
    r.nodes.length = r.ring.length ∧
    (0 < r.maxLen → r.Len ≤ r.maxLen) := by
  obtain ⟨⟨h1, h2, h3, h4⟩, -⟩ := reachable_rinv r hr
  have hperm : r.nodes.Perm r.ring := (List.perm_ext_iff_of_nodup h2 h1).mpr h3
  exact ⟨h1, h2, h3, hperm.length_eq, fun hm => h4 hm⟩

/-- Witness for C2: the state reached by Add(1, 2) on a fresh
unbounded robin. -/
theorem C2_structural_invariant_witness :
    (⟨[1, 2], [2, 1], 0, none⟩ : Robin Int).ring.Nodup ∧
    (⟨[1, 2], [2, 1], 0, none⟩ : Robin Int).nodes.Nodup ∧
    (∀ x, x ∈ (⟨[1, 2], [2, 1], 0, none⟩ : Robin Int).nodes ↔
      x ∈ (⟨[1, 2], [2, 1], 0, none⟩ : Robin Int).ring) ∧
    (⟨[1, 2], [2, 1], 0, none⟩ : Robin Int).nodes.length =
      (⟨[1, 2], [2, 1], 0, none⟩ : Robin Int).ring.length ∧
    (0 < (⟨[1, 2], [2, 1], 0, none⟩ : Robin Int).maxLen →
      (⟨[1, 2], [2, 1], 0, none⟩ : Robin Int).Len ≤
        (⟨[1, 2], [2, 1], 0, none⟩ : Robin Int).maxLen) :=
  C2_structural_invariant (⟨[1, 2], [2, 1], 0, none⟩ : Robin Int)
    (Reachable.step _ _ (Op.add [1, 2]) Reachable.unbounded (by decide))

/-- Claim C4: when Remove removes a value present in the index while
a buffer is configured and non-empty, exactly one value w is popped
from the buffer (the buffer count drops by one) and written into the
removed node in place (the ring keeps its length, with w occupying
exactly the removed node's position in rotation order, so ring
topology and the cursor are unchanged), the node is re-indexed under
w, and the length of the Robin is unchanged. -/
theorem C4_buffer_replacement {T : Type} [DecidableEq T] [Inhabited T]
    (r : Robin T) (v : T) (b : LIFOBuffer T)
    (hr : Reachable r) (hb : r.buffer = some b) (hn : b.n ≠ 0)
    (hv : v ∈ r.nodes) :
    ∃ w b2, b.Pop = some ((w, true), b2) ∧
      r.Remove [v] = some { r with
        ring := r.ring.replace v w,
        nodes := (r.nodes.erase v).insert w,
        buffer := some b2 } ∧
      (r.ring.replace v w).length = r.ring.length ∧
      ((r.nodes.erase v).insert w).length = r.Len ∧
      b2.n = b.n - 1 := by
  obtain ⟨⟨hrnd, hnnd, hmem, hbound⟩, hbuf⟩ := reachable_rinv r hr
  obtain ⟨hwf, hlnd, hdisj, hfullb⟩ := hbuf b hb
  obtain ⟨b2, hpop, hwf2, hlive2, hn2, hstep⟩ :=
    Robin.removeOne_replace r v b hv hb hwf hn
  refine ⟨b.live.headI, b2, hpop, Robin.Remove_single r v _ hstep, ?_, ?_, hn2⟩
  · exact List.length_replace
  · have hlivene : b.live ≠ [] := by
      intro hc
      have := LIFOBuffer.length_live b
      rw [hc] at this
      obtain ⟨-, hn0, -, -, -, -⟩ := hwf
      simp at this
      omega
    have hwlive : b.live.headI ∈ b.live := by
      cases hc : b.live with
      | nil => exact absurd hc hlivene
      | cons hd tl =>
        show (hd :: tl).headI ∈ hd :: tl
        exact List.mem_cons_self _ _
    have hwn : b.live.headI ∉ r.nodes := hdisj _ hwlive
    have hwe : b.live.headI ∉ r.nodes.erase v :=
      fun hx => hwn (List.mem_of_mem_erase hx)
    show ((r.nodes.erase v).insert b.live.headI).length = r.nodes.length
    rw [List.length_insert_of_not_mem hwe, List.length_erase_of_mem hv]
    have := List.length_pos_of_mem hv
    omega

/-- Witness for C4: the bounded capacity-2 robin holding 1, 2 with 3
buffered, removing 2. -/
theorem C4_buffer_replacement_witness :
    (⟨[1, 2], [2, 1], 2, some ⟨[3, 0], 1, 1, [(3, 1)], 2⟩⟩ : Robin Int).buffer =
      some ⟨[3, 0], 1, 1, [(3, 1)], 2⟩ ∧
    (⟨[3, 0], 1, 1, [(3, 1)], 2⟩ : LIFOBuffer Int).n ≠ 0 ∧
    (2 : Int) ∈ (⟨[1, 2], [2, 1], 2, some ⟨[3, 0], 1, 1, [(3, 1)], 2⟩⟩ : Robin Int).nodes ∧
    (∃ w b2, (⟨[3, 0], 1, 1, [(3, 1)], 2⟩ : LIFOBuffer Int).Pop = some ((w, true), b2) ∧
      (⟨[1, 2], [2, 1], 2, some ⟨[3, 0], 1, 1, [(3, 1)], 2⟩⟩ : Robin Int).Remove [2] =
        some { (⟨[1, 2], [2, 1], 2, some ⟨[3, 0], 1, 1, [(3, 1)], 2⟩⟩ : Robin Int) with
          ring := (⟨[1, 2], [2, 1], 2, some ⟨[3, 0], 1, 1, [(3, 1)], 2⟩⟩ : Robin Int).ring.replace 2 w,
          nodes := ((⟨[1, 2], [2, 1], 2, some ⟨[3, 0], 1, 1, [(3, 1)], 2⟩⟩ : Robin Int).nodes.erase 2).insert w,
          buffer := some b2 } ∧
      ((⟨[1, 2], [2, 1], 2, some ⟨[3, 0], 1, 1, [(3, 1)], 2⟩⟩ : Robin Int).ring.replace 2 w).length =
        (⟨[1, 2], [2, 1], 2, some ⟨[3, 0], 1, 1, [(3, 1)], 2⟩⟩ : Robin Int).ring.length ∧
      (((⟨[1, 2], [2, 1], 2, some ⟨[3, 0], 1, 1, [(3, 1)], 2⟩⟩ : Robin Int).nodes.erase 2).insert w).length =
        (⟨[1, 2], [2, 1], 2, some ⟨[3, 0], 1, 1, [(3, 1)], 2⟩⟩ : Robin Int).Len ∧
      b2.n = (⟨[3, 0], 1, 1, [(3, 1)], 2⟩ : LIFOBuffer Int).n - 1) :=
  ⟨rfl, by decide, by decide,
   C4_buffer_replacement (⟨[1, 2], [2, 1], 2, some ⟨[3, 0], 1, 1, [(3, 1)], 2⟩⟩ : Robin Int)
     2 ⟨[3, 0], 1, 1, [(3, 1)], 2⟩
     (Reachable.step _ _ (Op.add [1, 2, 3])
       (Reachable.boundedBuffer 2 2 ⟨[0, 0], 0, 0, [], 2⟩ (by decide) (by decide))
       (by decide))
     rfl (by decide) (by decide)⟩

/-- Counterexample to claim C7 as stated: a capacity-0 LIFO buffer is
a legal construction (NewLIFOBuffer(0) succeeds), yet Add on a full
bounded robin wired to it panics: the eviction read b.buf[b.i] in
Push indexes an empty backing array (and the write-index advance
takes a modulus by zero), so the operation does not run to
completion. -/
theorem C7_counterexample :
    Reachable (Robin.NewBounded 1 (some ⟨[], 0, 0, [], 0⟩) : Robin Int) ∧
    applyOp (Robin.NewBounded 1 (some ⟨[], 0, 0, [], 0⟩) : Robin Int)
      (Op.add [1, 2]) = none :=
  ⟨Reachable.boundedBuffer 1 0 ⟨[], 0, 0, [], 0⟩ (by decide) (by decide),
   by decide⟩

/-- Claim C7 (amended): provided every attached buffer has positive
capacity, no public operation of the Robin or the LIFOBuffer ever
panics from a reachable state: for every reachable state and every
input (including duplicate adds, removal of absent values, Next on an
empty ring, and Pop on an empty buffer) the operation runs to
completion, with absence reported only through the boolean presence
flags of Next and Pop or by silent no-op. -/
theorem C7_no_errors {T : Type} [DecidableEq T] [Inhabited T]
    (r : Robin T) (op : Op T) (hr : Reachable r)
    (hcap : ∀ b, r.buffer = some b → 0 < b.capacity) :
    (applyOp r op).isSome ∧
    (r.ring = [] → (r.Next).1 = (default, false)) ∧
    (∀ b : LIFOBuffer T, b.n = 0 → b.Pop = some ((default, false), b)) := by
  have hri := reachable_rinv r hr
  refine ⟨?_, Robin.Next_fst_of_nil r, LIFOBuffer.Pop_spec_zero⟩
  cases op with
  | add vs => exact (Robin.Add_main r vs hri).2 hcap
  | remove vs => exact (Robin.Remove_main vs r hri).2
  | next => rfl
  | reset => rfl

/-- Witness for C7: a duplicate Add then Next on a fresh unbounded
robin runs to completion. -/
theorem C7_no_errors_witness :
    (∀ b : LIFOBuffer Int, (Robin.NewUnbounded : Robin Int).buffer = some b →
      0 < b.capacity) ∧
    ((applyOp (Robin.NewUnbounded : Robin Int) (Op.add [1, 1])).isSome ∧
     ((Robin.NewUnbounded : Robin Int).ring = [] →
       ((Robin.NewUnbounded : Robin Int).Next).1 = (default, false)) ∧
     (∀ b : LIFOBuffer Int, b.n = 0 → b.Pop = some ((default, false), b))) :=
  ⟨fun b h => Option.noConfusion h,
   C7_no_errors (Robin.NewUnbounded : Robin Int) (Op.add [1, 1])
     Reachable.unbounded (fun b h => Option.noConfusion h)⟩

/-- Claim C9: for a bounded Robin with an attached buffer, driven
only through the public API: whenever the buffer is non-empty, the
Robin is bounded and full (Len = maxSize); after any Add, if the
buffer is non-empty the robin is likewise full (values are pushed
only while the ring is at maxSize); and Remove of any single value
never shrinks the ring while the buffer still holds a value. -/
theorem C9_buffer_only_when_full {T : Type} [DecidableEq T] [Inhabited T]
    (r : Robin T) (b : LIFOBuffer T)
    (hr : Reachable r) (hb : r.buffer = some b) :
    (b.n ≠ 0 → 0 < r.maxLen ∧ r.Len = r.maxLen) ∧
    (∀ vs r2, r.Add vs = some r2 → ∀ b2, r2.buffer = some b2 → b2.n ≠ 0 →
      r2.Len = r2.maxLen) ∧
    (∀ v, b.n ≠ 0 → ∃ r2, r.Remove [v] = some r2 ∧ r2.Len = r.Len) := by
  have hri := reachable_rinv r hr
  obtain ⟨-, -, -, hfullb⟩ := hri.2 b hb
  refine ⟨fun hn => ⟨(hfullb hn).1, (hfullb hn).2⟩, ?_, ?_⟩
  · intro vs r2 hadd b2 hb2 hn2
    have hr2 : Reachable r2 := Reachable.step r r2 (Op.add vs) hr hadd
    obtain ⟨-, hbuf2⟩ := reachable_rinv r2 hr2
    obtain ⟨-, -, -, hfullb2⟩ := hbuf2 b2 hb2
    exact (hfullb2 hn2).2
  · intro v hn
    obtain ⟨r2, hstep, hlen⟩ := removeOne_len_preserved r v b hri hb hn
    exact ⟨r2, Robin.Remove_single r v r2 hstep, hlen⟩

/-- Witness for C9: the bounded capacity-2 robin holding 1, 2 with 3
buffered. -/
theorem C9_buffer_only_when_full_witness :
    (⟨[1, 2], [2, 1], 2, some ⟨[3, 0], 1, 1, [(3, 1)], 2⟩⟩ : Robin Int).buffer =
      some ⟨[3, 0], 1, 1, [(3, 1)], 2⟩ ∧
    (((⟨[3, 0], 1, 1, [(3, 1)], 2⟩ : LIFOBuffer Int).n ≠ 0 →
      0 < (⟨[1, 2], [2, 1], 2, some ⟨[3, 0], 1, 1, [(3, 1)], 2⟩⟩ : Robin Int).maxLen ∧
      (⟨[1, 2], [2, 1], 2, some ⟨[3, 0], 1, 1, [(3, 1)], 2⟩⟩ : Robin Int).Len =
        (⟨[1, 2], [2, 1], 2, some ⟨[3, 0], 1, 1, [(3, 1)], 2⟩⟩ : Robin Int).maxLen) ∧
    (∀ vs r2, (⟨[1, 2], [2, 1], 2, some ⟨[3, 0], 1, 1, [(3, 1)], 2⟩⟩ : Robin Int).Add vs =
        some r2 → ∀ b2, r2.buffer = some b2 → b2.n ≠ 0 → r2.Len = r2.maxLen) ∧
    (∀ v, (⟨[3, 0], 1, 1, [(3, 1)], 2⟩ : LIFOBuffer Int).n ≠ 0 →
      ∃ r2, (⟨[1, 2], [2, 1], 2, some ⟨[3, 0], 1, 1, [(3, 1)], 2⟩⟩ : Robin Int).Remove [v] =
        some r2 ∧ r2.Len = (⟨[1, 2], [2, 1], 2, some ⟨[3, 0], 1, 1, [(3, 1)], 2⟩⟩ : Robin Int).Len)) :=
  ⟨rfl,
   C9_buffer_only_when_full
     (⟨[1, 2], [2, 1], 2, some ⟨[3, 0], 1, 1, [(3, 1)], 2⟩⟩ : Robin Int)
     ⟨[3, 0], 1, 1, [(3, 1)], 2⟩
     (Reachable.step _ _ (Op.add [1, 2, 3])
       (Reachable.boundedBuffer 2 2 ⟨[0, 0], 0, 0, [], 2⟩ (by decide) (by decide))
       (by decide))
     rfl⟩

/-- Claim C10: for a bounded Robin with an attached LIFO buffer,
driven only through the public API: no value is ever simultaneously
in the ring and in the buffer (Contains and BufferContains are never
both true), and the buffer never holds two occurrences of the same
value: every multiplicity in its count map is exactly 1. -/
theorem C10_ring_buffer_disjoint {T : Type} [DecidableEq T] [Inhabited T]
    (r : Robin T) (b : LIFOBuffer T)
    (hr : Reachable r) (hb : r.buffer = some b) :
    (∀ v, ¬ (r.Contains v = true ∧ r.BufferContains v = true)) ∧
    (∀ p ∈ b.count, p.2 = 1) := by
  obtain ⟨-, hbuf⟩ := reachable_rinv r hr
  obtain ⟨hwf, hlnd, hdisj, -⟩ := hbuf b hb
  obtain ⟨-, -, -, -, -, hco⟩ := hwf
  constructor
  · rintro v ⟨hc, hbc⟩
    have hvn : v ∈ r.nodes := by
      have := of_decide_eq_true hc
      exact this
    have hbcv : b.Contains v = true := by
      unfold Robin.BufferContains at hbc
      rw [hb] at hbc
      exact hbc
    have hvl : v ∈ b.live := (hco.2.2 v).mp hbcv
    exact hdisj v hvl hvn
  · intro p hp
    have hl := alookup_eq_of_mem_nodup b.count p hp hco.1
    have h1 := hco.2.1 p.1
    rw [hl] at h1
    have hm : p.1 ∈ b.live := by
      rw [← hco.2.2 p.1, hl]
      rfl
    have hcnt : b.live.count p.1 = 1 := List.count_eq_one_of_mem hlnd hm
    rw [hcnt] at h1
    simpa using h1

/-- Witness for C10: the bounded capacity-2 robin holding 1, 2 with 3
buffered. -/
theorem C10_ring_buffer_disjoint_witness :
    (⟨[1, 2], [2, 1], 2, some ⟨[3, 0], 1, 1, [(3, 1)], 2⟩⟩ : Robin Int).buffer =
      some ⟨[3, 0], 1, 1, [(3, 1)], 2⟩ ∧
    ((∀ v, ¬ ((⟨[1, 2], [2, 1], 2, some ⟨[3, 0], 1, 1, [(3, 1)], 2⟩⟩ : Robin Int).Contains v = true ∧
      (⟨[1, 2], [2, 1], 2, some ⟨[3, 0], 1, 1, [(3, 1)], 2⟩⟩ : Robin Int).BufferContains v = true)) ∧
    (∀ p ∈ (⟨[3, 0], 1, 1, [(3, 1)], 2⟩ : LIFOBuffer Int).count, p.2 = 1)) :=
  ⟨rfl,
   C10_ring_buffer_disjoint
     (⟨[1, 2], [2, 1], 2, some ⟨[3, 0], 1, 1, [(3, 1)], 2⟩⟩ : Robin Int)
     ⟨[3, 0], 1, 1, [(3, 1)], 2⟩
     (Reachable.step _ _ (Op.add [1, 2, 3])
       (Reachable.boundedBuffer 2 2 ⟨[0, 0], 0, 0, [], 2⟩ (by decide) (by decide))
       (by decide))
     rfl⟩


end RobinVerify
